import Mathlib

/-!
Verification development for the hash-table engine (`src/dict.c`, `src/dict.h`)
of the MyRedis repository.

Two shallow embeddings of the C code are used:

* a *list-level* model (`Dictht`, `Dict`), in which every bucket is the finite,
  null-terminated chain reachable from the bucket pointer, represented as a
  `List Entry`.  This representation is adequate for the code paths that only
  inspect or relink whole well-formed chains (`dictExpand`, `dictRehash`,
  `dictFind`, `dictGenericDelete`, the iterator and the scan), and it is the
  one used for all structural theorems.

* a *heap-level* model (`HEntry`, `HDict`, `HState`), in which entries live in
  an addressed store and `next` fields are raw optional addresses.  This model
  can represent the cyclic/shared chains produced by the entry-linking code of
  `dictAddRaw`, and is used for the claims about `dictAdd` / `dictReplace`.

Machine integers are modelled as `Nat` with explicit truncation where the C
width matters (`% 2^32` for `unsigned int` hash values, `% 2^64` for the
64-bit fingerprint arithmetic).  Undefined behaviour (NULL dereference,
out-of-bounds reads, assertion failure) is modelled by an `Option` result
whose `none` marks the crash; a C function that can fall off its end without
a `return` statement additionally returns an `Option` result value whose
`none` marks the unspecified returned value.

Keys and values are `Nat` (the opaque `void *` handles); the behaviour
descriptor has no key/value duplicators and the default identity key
comparison, so `dictCompareKeys` is equality of handles; the descriptor's
hash function is passed explicitly as a `hash : Nat → Nat` parameter
(`dictHashKey` truncates its result to `unsigned int`).
-/

/-- `DICT_OK` from dict.h. -/
def DICT_OK : Nat := 0

/-- `DICT_ERR` from dict.h. -/
def DICT_ERR : Nat := 1

/-- `DICT_HT_INITIAL_SIZE` from dict.h. -/
def DICT_HT_INITIAL_SIZE : Nat := 4

/-- `UINT32_MAX`, the clamp used by `_dictNextPower`. -/
def UINT32_MAX : Nat := 4294967295

/-- The static `dict_force_resize_ratio` (5) from dict.c. -/
def dict_force_resize_ratio : Nat := 5

/-- `2^32`, the modulus of C `unsigned int`. -/
def TWO32 : Nat := 4294967296

/-- `2^64`, the modulus of C `unsigned long` / `long long`. -/
def TWO64 : Nat := 18446744073709551616

/-- `dictHashKey(d, key)`: the descriptor hash truncated to `unsigned int`. -/
def hkey (hash : Nat → Nat) (k : Nat) : Nat := hash k % TWO32

/-- A chain node (`dictEntry`) in the list-level model: key and value handles.
The `next` pointer is implicit in the list structure of the bucket. -/
structure Entry where
  key : Nat
  val : Nat
deriving DecidableEq, Repr

/-- A bucket: the chain reachable from one slot of the bucket array, head first. -/
abbrev Bucket := List Entry

/-- One hash table (`dictht`).  `table = []` models a NULL bucket array. -/
structure Dictht where
  table : List Bucket
  size : Nat
  sizemask : Nat
  used : Nat
deriving DecidableEq, Repr

/-- The dictionary (`dict`).  The behaviour descriptor's hash function is
passed to the operations explicitly instead of being stored. -/
structure Dict where
  ht0 : Dictht
  ht1 : Dictht
  rehashidx : Int
  iterators : Nat
deriving DecidableEq, Repr

/-- `_dictReset`. -/
def _dictReset : Dictht := ⟨[], 0, 0, 0⟩

/-- `dictCreate` / `_dictInit`: both tables reset, not rehashing, no iterators. -/
def dictCreate : Dict := ⟨_dictReset, _dictReset, -1, 0⟩

/-- `dictIsRehashing(d)`: `rehashidx != -1`. -/
def dictIsRehashing (d : Dict) : Bool := d.rehashidx != -1

/-- `dictSize(d)`: `ht[0].used + ht[1].used`. -/
def dictSize (d : Dict) : Nat := d.ht0.used + d.ht1.used

/-- The or-shift cascade of `_dictNextPower`, which fills in every bit below
the most significant set bit (for inputs below `2^32`). -/
def orSmear (x : Nat) : Nat :=
  let s := x ||| (x >>> 1)
  let s := s ||| (s >>> 2)
  let s := s ||| (s >>> 4)
  let s := s ||| (s >>> 8)
  let s := s ||| (s >>> 16)
  s

/-- `_dictNextPower`: round up to a power of two, with the low clamp to
`DICT_HT_INITIAL_SIZE` and the high clamp to `UINT32_MAX`, via the
or-shift bit smear of dict.c. -/
def _dictNextPower (size : Nat) : Nat :=
  if size < DICT_HT_INITIAL_SIZE then DICT_HT_INITIAL_SIZE
  else if size > UINT32_MAX then UINT32_MAX
  else orSmear (size - 1) + 1

/-- `dictExpand(d, size)`: refuse while rehashing or when `ht[0].used > size`;
otherwise allocate a zeroed table of `_dictNextPower size` buckets, which
becomes table 0 if table 0 is unallocated and otherwise becomes table 1 with
`rehashidx` armed at 0.  Returns the updated dict and the result code. -/
def dictExpand (d : Dict) (size : Nat) : Dict × Nat :=
  let realsize := _dictNextPower size
  if dictIsRehashing d || d.ht0.used > size then (d, DICT_ERR)
  else
    let n : Dictht := ⟨List.replicate realsize [], realsize, realsize - 1, 0⟩
    if d.ht0.table = [] then ({ d with ht0 := n }, DICT_OK)
    else ({ d with ht1 := n, rehashidx := 0 }, DICT_OK)

/-- Recursion core of `skipEmpty`, structurally recursive on the number of
remaining slots so that it reduces definitionally. -/
def skipEmptyGo (t : List Bucket) : Nat → Nat → Option Nat
  | _, 0 => none
  | i, fuel + 1 =>
    if i < t.length then
      if t.getD i [] = [] then skipEmptyGo t (i + 1) fuel else some i
    else none

/-- The skip loop of `dictRehash`: advance from index `i` to the first
non-empty bucket.  The C loop reads past the end of the array if every
remaining bucket is empty; that out-of-bounds read is modelled by `none`. -/
def skipEmpty (t : List Bucket) (i : Nat) : Option Nat :=
  skipEmptyGo t i (t.length - i)

/-- The inner migration loop of `dictRehash`: move every entry of the chain
`es` (in chain order) to the head of its table-1 bucket, decrementing the
table-0 `used` count and incrementing table 1's as the C code does per node. -/
def moveEntries (hash : Nat → Nat) (es : List Entry) (used0 : Nat) (t1 : Dictht) :
    Nat × Dictht :=
  match es with
  | [] => (used0, t1)
  | de :: rest =>
    let h := hkey hash de.key &&& t1.sizemask
    let t1' : Dictht :=
      { t1 with table := t1.table.set h (de :: t1.table.getD h []), used := t1.used + 1 }
    moveEntries hash rest (used0 - 1) t1'

/-- The `while (n--)` body of `dictRehash`.  Result `none` is a crash
(assertion failure or out-of-bounds read); `some (d, none)` means control
fell off the end of the C function, so the dict state is `d` but the
returned `int` is unspecified; `some (d, some r)` is a normal return of `r`. -/
def rehashLoop (hash : Nat → Nat) (d : Dict) : Nat → Option (Dict × Option Nat)
  | 0 => some (d, none)
  | n + 1 =>
    if d.ht0.used = 0 then
      let d' : Dict := { d with ht0 := d.ht1, ht1 := _dictReset, rehashidx := -1 }
      some (d', some 0)
    else
      if d.ht0.size ≤ ((d.rehashidx % 4294967296).toNat % 4294967296) then none
      else
        match skipEmpty d.ht0.table d.rehashidx.toNat with
        | none => none
        | some i =>
          let es := d.ht0.table.getD i []
          let (used0', t1') := moveEntries hash es d.ht0.used d.ht1
          let d' : Dict :=
            { d with
              ht0 := { d.ht0 with table := d.ht0.table.set i [], used := used0' }
              ht1 := t1'
              rehashidx := (i : Int) + 1 }
          rehashLoop hash d' n

/-- `dictRehash(d, n)`: no-op returning 0 when not rehashing, otherwise up to
`n` bucket migrations (see `rehashLoop` for the result convention). -/
def dictRehash (hash : Nat → Nat) (d : Dict) (n : Nat) : Option (Dict × Option Nat) :=
  if dictIsRehashing d then rehashLoop hash d n else some (d, some 0)

/-- `_dictRehashStep`: one `dictRehash(d, 1)` step, but only when no
iterators are outstanding; the return value of `dictRehash` is discarded. -/
def _dictRehashStep (hash : Nat → Nat) (d : Dict) : Option Dict :=
  if d.iterators = 0 then (dictRehash hash d 1).map Prod.fst else some d

/-- `_dictExpandIfNeeded`: initialize table 0 to the minimal size when
unallocated; otherwise expand to `2 * used` when the load reaches 1 with
resizing administratively enabled (`canResize`, the global
`dict_can_resize`), or unconditionally when `used / size` exceeds
`dict_force_resize_ratio`. -/
def _dictExpandIfNeeded (canResize : Bool) (d : Dict) : Dict × Nat :=
  if dictIsRehashing d then (d, DICT_OK)
  else if d.ht0.size = 0 then dictExpand d DICT_HT_INITIAL_SIZE
  else if (d.ht0.used ≥ d.ht0.size && canResize)
      || d.ht0.used / d.ht0.size > dict_force_resize_ratio then
    dictExpand d (2 * d.ht0.used)
  else (d, DICT_OK)

/-- First entry of a chain whose key compares equal (`dictCompareKeys` with
no custom comparator is handle equality). -/
def bucketFind (k : Nat) : Bucket → Option Entry
  | [] => none
  | e :: rest => if e.key = k then some e else bucketFind k rest

/-- The pure search phase of `dictFind`: table 0's bucket for the key, then,
only while rehashing, table 1's bucket; `none` when table 0 is unallocated. -/
def findLookup (hash : Nat → Nat) (d : Dict) (k : Nat) : Option Entry :=
  if d.ht0.size = 0 then none
  else
    let h := hkey hash k
    match bucketFind k (d.ht0.table.getD (h &&& d.ht0.sizemask) []) with
    | some e => some e
    | none =>
      if dictIsRehashing d then
        bucketFind k (d.ht1.table.getD (h &&& d.ht1.sizemask) [])
      else none

/-- `dictFind`: the empty-table short-circuit, the conditional incremental
rehash step, then the search on the post-step state. -/
def dictFind (hash : Nat → Nat) (d : Dict) (k : Nat) : Option (Dict × Option Entry) :=
  if d.ht0.size = 0 then some (d, none)
  else
    match (if dictIsRehashing d then _dictRehashStep hash d else some d) with
    | none => none
    | some d' => some (d', findLookup hash d' k)

/-- Truncation to 64 bits: C `unsigned long` / `long long` wraparound. -/
def mask64 (n : Nat) : Nat := n % TWO64

/-- Bitwise complement on 64 bits. -/
def not64 (n : Nat) : Nat := TWO64 - 1 - mask64 n

/-- Left shift with 64-bit wraparound. -/
def shl64 (n s : Nat) : Nat := mask64 (n <<< s)

/-- Arithmetic (sign-extending) right shift of a 64-bit two's-complement
value, as C performs on a negative `long long`. -/
def asr64 (n s : Nat) : Nat :=
  let m := mask64 n
  if m < 9223372036854775808 then m >>> s
  else (m >>> s) + (TWO64 - (1 <<< (64 - s)))

/-- One round of the Thomas Wang 64-bit avalanche mix used by
`dictFingerprint`, with C signed arithmetic modelled mod `2^64`. -/
def fpMix (h0 : Nat) : Nat :=
  let h := mask64 (not64 h0 + shl64 h0 21)
  let h := h ^^^ asr64 h 24
  let h := mask64 (h + shl64 h 3 + shl64 h 8)
  let h := h ^^^ asr64 h 14
  let h := mask64 (h + shl64 h 2 + shl64 h 4)
  let h := h ^^^ asr64 h 28
  mask64 (h + shl64 h 31)

/-- The integer the C code gets from `(long) ht->table`: 0 for a NULL bucket
array, otherwise the allocation's address, which the list-level model cannot
know and therefore takes as the parameter `addr`. -/
def tablePtr (addr : Nat) (t : Dictht) : Nat := if t.table = [] then 0 else addr

/-- `dictFingerprint`: fold the six integers (both tables' array addresses,
sizes and used counts) through `fpMix`, starting from 0. -/
def dictFingerprint (a0 a1 : Nat) (d : Dict) : Nat :=
  [tablePtr a0 d.ht0, d.ht0.size, d.ht0.used,
   tablePtr a1 d.ht1, d.ht1.size, d.ht1.used].foldl
    (fun h x => fpMix (mask64 (h + x))) 0

/-- `dictIterator`.  The entry pointers are modelled as the chain suffix they
point at (`[]` is NULL); `fingerprint = none` models the uninitialized field
of a freshly allocated iterator. -/
structure DictIterator where
  table : Nat
  index : Int
  safe : Bool
  entry : List Entry
  nextEntry : List Entry
  fingerprint : Option Nat
deriving DecidableEq, Repr

/-- `dictGetIterator`: unsafe iterator in its initial state. -/
def dictGetIterator : DictIterator := ⟨0, -1, false, [], [], none⟩

/-- `dictGetSafeIterator`. -/
def dictGetSafeIterator : DictIterator := { dictGetIterator with safe := true }

/-- The `while (1)` loop of `dictNext`, with explicit fuel (the loop advances
through at most both tables' bucket arrays between returns; `dictNext`
supplies sufficient fuel, and `none` is only ever produced on fuel
exhaustion).  The first advance of a fresh iterator increments the dict's
safe-iterator count or captures the unsafe fingerprint. -/
def dictNextLoop (a0 a1 : Nat) : Nat → Dict → DictIterator →
    Option (Dict × DictIterator × Option Entry)
  | 0, _, _ => none
  | fuel + 1, d, it =>
    if it.entry.isEmpty then
      let ht := if it.table = 0 then d.ht0 else d.ht1
      let dIt :=
        if it.index = -1 ∧ it.table = 0 then
          if it.safe then ({ d with iterators := d.iterators + 1 }, it)
          else (d, { it with fingerprint := some (dictFingerprint a0 a1 d) })
        else (d, it)
      let d := dIt.1
      let it := { dIt.2 with index := dIt.2.index + 1 }
      if it.index ≥ (ht.size : Int) then
        if dictIsRehashing d && it.table == 0 then
          let it := { it with table := 1, index := 0, entry := d.ht1.table.getD 0 [] }
          if it.entry.isEmpty then dictNextLoop a0 a1 fuel d it
          else some (d, { it with nextEntry := it.entry.tail }, it.entry.head?)
        else some (d, it, none)
      else
        let it := { it with entry := ht.table.getD it.index.toNat [] }
        if it.entry.isEmpty then dictNextLoop a0 a1 fuel d it
        else some (d, { it with nextEntry := it.entry.tail }, it.entry.head?)
    else
      let it := { it with entry := it.nextEntry }
      if it.entry.isEmpty then dictNextLoop a0 a1 fuel d it
      else some (d, { it with nextEntry := it.entry.tail }, it.entry.head?)

/-- `dictNext` with fuel sufficient for any well-formed state. -/
def dictNext (a0 a1 : Nat) (d : Dict) (it : DictIterator) :
    Option (Dict × DictIterator × Option Entry) :=
  dictNextLoop a0 a1 (d.ht0.size + d.ht1.size + 4) d it

/-- `dictReleaseIterator`: iterators still in their initial state are freed
with no bookkeeping at all; otherwise a safe iterator decrements the live
count and an unsafe one re-validates its fingerprint, the Boolean result
recording whether the `redis_assert` misuse check fired. -/
def dictReleaseIterator (a0 a1 : Nat) (d : Dict) (it : DictIterator) : Dict × Bool :=
  if ¬(it.index = -1 ∧ it.table = 0) then
    if it.safe then ({ d with iterators := d.iterators - 1 }, false)
    else (d, decide (¬ it.fingerprint = some (dictFingerprint a0 a1 d)))
  else (d, false)

/-- Remove the first entry with key `k` from a chain; `none` when absent. -/
def bucketDelete (k : Nat) : Bucket → Option Bucket
  | [] => none
  | e :: rest =>
    if e.key = k then some rest
    else (bucketDelete k rest).map (fun b => e :: b)

/-- `dictGenericDelete` (the `nofree` flag does not affect the list-level
state): empty-table short-circuit, conditional rehash step, then unlink from
table 0's bucket or, while rehashing, table 1's. -/
def dictGenericDelete (hash : Nat → Nat) (d : Dict) (k : Nat) : Option (Dict × Nat) :=
  if d.ht0.size = 0 then some (d, DICT_ERR)
  else
    match (if dictIsRehashing d then _dictRehashStep hash d else some d) with
    | none => none
    | some d' =>
      let h := hkey hash k
      let i0 := h &&& d'.ht0.sizemask
      match bucketDelete k (d'.ht0.table.getD i0 []) with
      | some b0 =>
        some ({ d' with ht0 :=
          { d'.ht0 with table := d'.ht0.table.set i0 b0, used := d'.ht0.used - 1 } },
          DICT_OK)
      | none =>
        if dictIsRehashing d' then
          let i1 := h &&& d'.ht1.sizemask
          match bucketDelete k (d'.ht1.table.getD i1 []) with
          | some b1 =>
            some ({ d' with ht1 :=
              { d'.ht1 with table := d'.ht1.table.set i1 b1, used := d'.ht1.used - 1 } },
              DICT_OK)
          | none => some (d', DICT_ERR)
        else some (d', DICT_ERR)

/-- A heap cell (`dictEntry`) in the heap-level model: `none` key/value model
the uninitialized fields of a freshly allocated entry; `next` is an optional
heap address. -/
structure HEntry where
  key : Option Nat
  val : Option Nat
  next : Option Nat
deriving DecidableEq, Repr

/-- One hash table in the heap-level model: `table = none` is a NULL bucket
array, and each bucket slot holds an optional head address. -/
structure HDictht where
  table : Option (List (Option Nat))
  size : Nat
  sizemask : Nat
  used : Nat
deriving DecidableEq, Repr

/-- The dict header in the heap-level model. -/
structure HDict where
  ht0 : HDictht
  ht1 : HDictht
  rehashidx : Int
  iterators : Nat
deriving DecidableEq, Repr

/-- A program state: the dict header, the entry heap (addresses are list
indices, allocation appends), and the log of values passed to the value
destructor by `dictFreeVal`. -/
structure HState where
  d : HDict
  heap : List HEntry
  destroyed : List (Option Nat)
deriving DecidableEq, Repr

/-- `_dictReset` for the heap-level model. -/
def hReset : HDictht := ⟨none, 0, 0, 0⟩

/-- `dictCreate` for the heap-level model. -/
def dictCreateH : HState := ⟨⟨hReset, hReset, -1, 0⟩, [], []⟩

/-- Read a bucket head pointer; reading from a NULL array yields NULL (such
reads only happen on allocated tables in the guarded code paths). -/
def hBucketGet (t : HDictht) (i : Nat) : Option Nat :=
  match t.table with
  | none => none
  | some l => l.getD i none

/-- Walk a chain looking for `k` with `dictCompareKeys` (handle equality);
`some (some a)` is a hit at address `a`, `some none` reached NULL, `none`
is fuel exhaustion (a cyclic chain, i.e. C non-termination) or a wild
pointer. -/
def hFindInChain (heap : List HEntry) (k : Nat) : Option Nat → Nat → Option (Option Nat)
  | _, 0 => none
  | none, _ + 1 => some none
  | some a, fuel + 1 =>
    match heap.get? a with
    | none => none
    | some e => if e.key = some k then some (some a) else hFindInChain heap k e.next fuel

/-- `dictExpand` for the heap-level model (same logic as `dictExpand`). -/
def dictExpandH (st : HState) (size : Nat) : HState × Nat :=
  let d := st.d
  let realsize := _dictNextPower size
  if d.rehashidx != -1 || d.ht0.used > size then (st, DICT_ERR)
  else
    let n : HDictht := ⟨some (List.replicate realsize none), realsize, realsize - 1, 0⟩
    if d.ht0.table = none then ({ st with d := { d with ht0 := n } }, DICT_OK)
    else ({ st with d := { d with ht1 := n, rehashidx := 0 } }, DICT_OK)

/-- `_dictExpandIfNeeded` for the heap-level model. -/
def _dictExpandIfNeededH (canResize : Bool) (st : HState) : HState × Nat :=
  if st.d.rehashidx != -1 then (st, DICT_OK)
  else if st.d.ht0.size = 0 then dictExpandH st DICT_HT_INITIAL_SIZE
  else if (st.d.ht0.used ≥ st.d.ht0.size && canResize)
      || st.d.ht0.used / st.d.ht0.size > dict_force_resize_ratio then
    dictExpandH st (2 * st.d.ht0.used)
  else (st, DICT_OK)

/-- Recursion core of `skipEmptyH`, structurally recursive on the number of
remaining slots. -/
def skipEmptyHGo (t : List (Option Nat)) : Nat → Nat → Option Nat
  | _, 0 => none
  | i, fuel + 1 =>
    if i < t.length then
      if t.getD i none = none then skipEmptyHGo t (i + 1) fuel else some i
    else none

/-- The skip loop of `dictRehash` on a heap-level bucket array. -/
def skipEmptyH (t : List (Option Nat)) (i : Nat) : Option Nat :=
  skipEmptyHGo t i (t.length - i)

/-- The inner migration loop of `dictRehash` on the heap: relink each chain
node into its table-1 bucket.  Returns the new heap, table 1 and table-0
used count; `none` on a cyclic chain, wild pointer or garbage key. -/
def hMoveChain (hash : Nat → Nat) :
    Nat → Option Nat → List HEntry → HDictht → Nat →
    Option (List HEntry × HDictht × Nat)
  | _, none, heap, t1, used0 => some (heap, t1, used0)
  | 0, some _, _, _, _ => none
  | fuel + 1, some a, heap, t1, used0 =>
    match heap.get? a with
    | none => none
    | some e =>
      match e.key with
      | none => none
      | some k =>
        let nextde := e.next
        let h := hkey hash k &&& t1.sizemask
        let oldHead :=
          match t1.table with
          | none => none
          | some l => l.getD h none
        let heap' := heap.set a { e with next := oldHead }
        let t1' : HDictht :=
          { t1 with table := t1.table.map (fun l => l.set h (some a)), used := t1.used + 1 }
        hMoveChain hash fuel nextde heap' t1' (used0 - 1)

/-- The `while (n--)` body of `dictRehash` on the heap, with the same result
convention as `rehashLoop`. -/
def rehashLoopH (hash : Nat → Nat) : Nat → HState → Option (HState × Option Nat)
  | 0, st => some (st, none)
  | n + 1, st =>
    let d := st.d
    if d.ht0.used = 0 then
      some ({ st with d := { d with ht0 := d.ht1, ht1 := hReset, rehashidx := -1 } }, some 0)
    else
      if d.ht0.size ≤ (d.rehashidx % (4294967296 : Int)).toNat then none
      else
        match d.ht0.table with
        | none => none
        | some buckets =>
          match skipEmptyH buckets d.rehashidx.toNat with
          | none => none
          | some i =>
            match hMoveChain hash (st.heap.length + 1) (buckets.getD i none)
                st.heap d.ht1 d.ht0.used with
            | none => none
            | some (heap', t1', used0') =>
              let ht0' : HDictht :=
                { d.ht0 with table := some (buckets.set i none), used := used0' }
              rehashLoopH hash n
                { st with
                  d := { d with ht0 := ht0', ht1 := t1', rehashidx := (i : Int) + 1 }
                  heap := heap' }

/-- `dictRehash` for the heap-level model. -/
def dictRehashH (hash : Nat → Nat) (st : HState) (n : Nat) : Option (HState × Option Nat) :=
  if st.d.rehashidx != -1 then rehashLoopH hash n st else some (st, some 0)

/-- `_dictRehashStep` for the heap-level model. -/
def _dictRehashStepH (hash : Nat → Nat) (st : HState) : Option HState :=
  if st.d.iterators = 0 then (dictRehashH hash st 1).map Prod.fst else some st

/-- `_dictKeyIndex` for the heap-level model: grow if needed, then return the
insertion index in the active table, or `some (st, none)` (C's `-1`) when
the key exists or the expansion failed. -/
def _dictKeyIndexH (hash : Nat → Nat) (canResize : Bool) (st : HState) (k : Nat) :
    Option (HState × Option Nat) :=
  let stc := _dictExpandIfNeededH canResize st
  if stc.2 = DICT_ERR then some (stc.1, none)
  else
    let st1 := stc.1
    let d := st1.d
    let h := hkey hash k
    let i0 := h &&& d.ht0.sizemask
    match hFindInChain st1.heap k (hBucketGet d.ht0 i0) (st1.heap.length + 1) with
    | none => none
    | some (some _) => some (st1, none)
    | some none =>
      if d.rehashidx != -1 then
        let i1 := h &&& d.ht1.sizemask
        match hFindInChain st1.heap k (hBucketGet d.ht1 i1) (st1.heap.length + 1) with
        | none => none
        | some (some _) => some (st1, none)
        | some none => some (st1, some i1)
      else some (st1, some i0)

/-- `dictAddRaw`, exactly as written in dict.c: after computing the index it
executes `entry->next = ht->table[index]; ht->table[index]->next = entry;`,
so the bucket slot itself is never updated and an empty bucket head is
dereferenced (modelled by `none`). -/
def dictAddRawH (hash : Nat → Nat) (canResize : Bool) (st : HState) (k : Nat) :
    Option (HState × Option Nat) :=
  match (if st.d.rehashidx != -1 then _dictRehashStepH hash st else some st) with
  | none => none
  | some st =>
    match _dictKeyIndexH hash canResize st k with
    | none => none
    | some (st, none) => some (st, none)
    | some (st, some index) =>
      let into1 := st.d.rehashidx != -1
      let ht := if into1 then st.d.ht1 else st.d.ht0
      let addr := st.heap.length
      let head := hBucketGet ht index
      let heap1 := st.heap ++ [⟨none, none, head⟩]
      match head with
      | none => none
      | some p =>
        match heap1.get? p with
        | none => none
        | some pe =>
          let heap2 := heap1.set p { pe with next := some addr }
          let ht' := { ht with used := ht.used + 1 }
          let d' := if into1 then { st.d with ht1 := ht' } else { st.d with ht0 := ht' }
          let heap3 :=
            match heap2.get? addr with
            | none => heap2
            | some ne => heap2.set addr { ne with key := some k }
          some ({ st with d := d', heap := heap3 }, some addr)

/-- `dictAdd`: `dictAddRaw` then `dictSetVal` on the returned entry. -/
def dictAddH (hash : Nat → Nat) (canResize : Bool) (st : HState) (k v : Nat) :
    Option (HState × Nat) :=
  match dictAddRawH hash canResize st k with
  | none => none
  | some (st, none) => some (st, DICT_ERR)
  | some (st, some a) =>
    match st.heap.get? a with
    | none => none
    | some e => some ({ st with heap := st.heap.set a { e with val := some v } }, DICT_OK)

/-- `dictFind` for the heap-level model. -/
def dictFindH (hash : Nat → Nat) (st : HState) (k : Nat) : Option (HState × Option Nat) :=
  if st.d.ht0.size = 0 then some (st, none)
  else
    match (if st.d.rehashidx != -1 then _dictRehashStepH hash st else some st) with
    | none => none
    | some st =>
      let d := st.d
      let h := hkey hash k
      match hFindInChain st.heap k (hBucketGet d.ht0 (h &&& d.ht0.sizemask))
          (st.heap.length + 1) with
      | none => none
      | some (some a) => some (st, some a)
      | some none =>
        if d.rehashidx != -1 then
          match hFindInChain st.heap k (hBucketGet d.ht1 (h &&& d.ht1.sizemask))
              (st.heap.length + 1) with
          | none => none
          | some r => some (st, r)
        else some (st, none)

/-- `dictReplace`, exactly as written in dict.c: it compares the *pointer*
returned by `dictAddRaw` with `DICT_OK` (0), so a NULL result (key already
present) takes the `return 1` path and a successful raw insert falls through
to the find/overwrite path; `dictSetVal` runs before `dictFreeVal` on the
copied-out old entry. -/
def dictReplaceH (hash : Nat → Nat) (canResize : Bool) (st : HState) (k v : Nat) :
    Option (HState × Nat) :=
  match dictAddRawH hash canResize st k with
  | none => none
  | some (st, ret) =>
    if ret = none then some (st, 1)
    else
      match dictFindH hash st k with
      | none => none
      | some (_, none) => none
      | some (st, some a) =>
        match st.heap.get? a with
        | none => none
        | some e =>
          let aux := e
          let st1 := { st with heap := st.heap.set a { e with val := some v } }
          some ({ st1 with destroyed := st1.destroyed ++ [aux.val] }, 0)

/-- The identity hash used to instantiate concrete scenarios
(`dictIndentityHashFunction` from dict.c). -/
def idHash : Nat → Nat := fun k => k

/-- A heap-level state holding one entry (key 0, value 10) at address 0 in
bucket 0 of an allocated table of size 4: the smallest state on which
`dictAddRaw` does not crash for a new key hashing to bucket 0. -/
def oneEntryState : HState :=
  { d := { ht0 := { table := some [some 0, none, none, none], size := 4, sizemask := 3, used := 1 }
           ht1 := hReset, rehashidx := -1, iterators := 0 }
    heap := [⟨some 0, some 10, none⟩]
    destroyed := [] }

/-- The run of `replace(4, 11); replace(4, 22)` on `oneEntryState`, returning
both result codes and the final state. -/
def replaceTwiceRun : Option (Nat × Nat × HState) :=
  (dictReplaceH idHash true oneEntryState 4 11).bind fun p =>
    (dictReplaceH idHash true p.1 4 22).map fun q => (p.2, q.2, q.1)

/-- A dict mid-rehash (cursor 0) with two entries still in table 0, so that a
single `dictRehash(d, 1)` step migrates one bucket and cannot complete. -/
def midRehashDict : Dict :=
  { ht0 := { table := [[⟨0, 10⟩], [⟨1, 11⟩], [], []], size := 4, sizemask := 3, used := 2 }
    ht1 := { table := List.replicate 8 [], size := 8, sizemask := 7, used := 0 }
    rehashidx := 0, iterators := 0 }

/-- A one-entry dict (key 0, value 7) used for the iterator scenarios. -/
def oneEntryDict : Dict :=
  { ht0 := { table := [[⟨0, 7⟩], [], [], []], size := 4, sizemask := 3, used := 1 }
    ht1 := _dictReset, rehashidx := -1, iterators := 0 }

/-- `oneEntryDict` after a successful `dictExpand(d, 8)`: a structural
mutation (table 1 allocated, rehash armed) that changes the fingerprint. -/
def mutatedDict : Dict := (dictExpand oneEntryDict 8).1

/-- The result of the first advance of an unsafe iterator on `oneEntryDict`
with table addresses 3 and 9 (computed value, fixed by `dictNext`). -/
def advancedIter : DictIterator :=
  { table := 0, index := 0, safe := false,
    entry := [⟨0, 7⟩], nextEntry := [],
    fingerprint := some (dictFingerprint 3 9 oneEntryDict) }

/-- A mid-rehash dict with a live iterator registered, for the rehash-step
gating scenarios. -/
def iterHeldDict : Dict := { midRehashDict with iterators := 1 }

/-- A dict at full load (size 4, used 4) for the growth-policy scenarios. -/
def loadedDict : Dict :=
  { ht0 := { table := [[⟨0, 1⟩], [⟨1, 2⟩], [⟨2, 3⟩], [⟨3, 4⟩]], size := 4, sizemask := 3, used := 4 }
    ht1 := _dictReset, rehashidx := -1, iterators := 0 }

def bucketKeyCount (k : Nat) (b : Bucket) : Nat := (b.map Entry.key).count k

def tableKeyCount (k : Nat) (t : Dictht) : Nat := (t.table.map (bucketKeyCount k)).sum

def tableKeys (t : Dictht) : List Nat := (t.table.map (fun b => b.map Entry.key)).flatten

def sizeOk (s : Nat) : Prop := ∃ k, k < 33 ∧ s = 2 ^ k

def tableWF (hash : Nat → Nat) (t : Dictht) : Prop :=
  sizeOk t.size ∧ t.sizemask = t.size - 1 ∧ t.table.length = t.size ∧
  t.used = (t.table.map List.length).sum ∧
  ∀ i, i < t.table.length → ∀ e ∈ t.table.getD i [], hkey hash e.key &&& t.sizemask = i

def dictWF (hash : Nat → Nat) (d : Dict) : Prop :=
  tableWF hash d.ht0 ∧
  (dictIsRehashing d = true →
    tableWF hash d.ht1 ∧ 0 ≤ d.rehashidx ∧
    ∀ i, i < d.rehashidx.toNat → d.ht0.table.getD i [] = []) ∧
  (dictIsRehashing d = false → d.ht1 = _dictReset) ∧
  (tableKeys d.ht0 ++ tableKeys d.ht1).Nodup

/-- The dict state after one `dictRehash` step migrates bucket `i`: the body
of the `while (n--)` loop written as a function (the destructured pair of
`moveEntries` is its two projections, definitionally equal to the inline
`let` of `rehashLoop`). -/
def migrateBucket (hash : Nat → Nat) (d : Dict) (i : Nat) : Dict :=
  { d with
    ht0 := { d.ht0 with table := d.ht0.table.set i [], used := (moveEntries hash (d.ht0.table.getD i []) d.ht0.used d.ht1).1 }
    ht1 := (moveEntries hash (d.ht0.table.getD i []) d.ht0.used d.ht1).2
    rehashidx := (i : Int) + 1 }

/-- One layer of the Stanford bit-hacks parallel reversal loop of `rev`:
state is `(v, mask)`, the C body is `mask ^= (mask << s);
v = ((v >> s) & mask) | ((v << s) & ~mask);` on 64-bit unsigned longs. -/
def revStep (p : Nat × Nat) (s : Nat) : Nat × Nat :=
  let mask := p.2 ^^^ shl64 p.2 s
  (((p.1 >>> s) &&& mask) ||| (shl64 p.1 s &&& not64 mask), mask)

/-- `rev`: reverse the 64 bits of the cursor.  The C `while ((s >>= 1) > 0)`
loop runs the body for `s = 32, 16, 8, 4, 2, 1` starting from `mask = ~0`. -/
def rev (v : Nat) : Nat :=
  ([32, 16, 8, 4, 2, 1].foldl revStep (mask64 v, TWO64 - 1)).1

/-- The `do { ... } while (v & (m0 ^ m1))` expansion loop of `dictScan`:
emit the larger table's bucket `v & m1`, step the bits above `m0` with
`v = (((v | m0) + 1) & ~m0) | (v & m0)`, and stop once the bits covered by
the mask difference are zero.  `none` models fuel exhaustion (the C loop is
a do-while with no other exit). -/
def scanExpansionLoop (t1 : Dictht) (m0 m1 : Nat) :
    Nat → Nat → List Entry → Option (List Entry × Nat)
  | 0, _, _ => none
  | fuel + 1, v, acc =>
    let acc' := acc ++ t1.table.getD (v &&& m1) []
    let v' := ((mask64 ((v ||| m0) + 1)) &&& not64 m0) ||| (v &&& m0)
    if v' &&& (m0 ^^^ m1) = 0 then some (acc', v')
    else scanExpansionLoop t1 m0 m1 fuel v' acc'

/-- `dictScan(d, v, fn, privdata)`: returns the list of entries handed to
`fn` (in emission order) and the next cursor.  Empty dict short-circuits to
cursor 0; otherwise one table (not rehashing) or the smaller-table bucket
plus its expansions in the larger table (rehashing) are emitted, and the
cursor is advanced by `v |= ~m0; v = rev(v); v++; v = rev(v);` using the
smaller table's mask. -/
def dictScan (d : Dict) (fuel v0 : Nat) : Option (List Entry × Nat) :=
  let v := mask64 v0
  if dictSize d = 0 then some ([], 0)
  else
    let small0 : Bool := !(d.ht0.size > d.ht1.size)
    let m0 := if dictIsRehashing d then
        (if small0 then d.ht0.sizemask else d.ht1.sizemask)
      else d.ht0.sizemask
    let step : Option (List Entry × Nat) :=
      if dictIsRehashing d then
        let t0 := if small0 then d.ht0 else d.ht1
        let t1 := if small0 then d.ht1 else d.ht0
        scanExpansionLoop t1 m0 t1.sizemask fuel v (t0.table.getD (v &&& m0) [])
      else
        some (d.ht0.table.getD (v &&& m0) [], v)
    match step with
    | none => none
    | some (emitted, v1) =>
      some (emitted, rev (mask64 (rev (v1 ||| not64 m0) + 1)))

/-- A non-rehashing dict with one entry (key 4, value 9) in bucket 4 of a
size-16 table: the state for the first scan call. -/
def dScanA : Dict :=
  { ht0 := { table := [[], [], [], [], [⟨4, 9⟩], [], [], [], [], [], [], [], [], [], [], []],
             size := 16, sizemask := 15, used := 1 }
    ht1 := _dictReset, rehashidx := -1, iterators := 0 }

/-- The same entries mid-shrink: `dictExpand dScanA 4` arms a rehash from
the size-16 table (still holding the entry) into a fresh size-4 table. -/
def dScanB : Dict := (dictExpand dScanA 4).1

/-- C1: the claim asserts that a successful `dictAdd` head-links the new
entry into its bucket and that a subsequent `dictFind` returns its value.
The code instead executes `ht->table[index]->next = entry` without ever
storing the entry in the bucket slot: on a fresh dict the very first add
dereferences the NULL head of the empty target bucket (modelled `none`),
and on a non-empty bucket the raw insert leaves the bucket head unchanged
(the entry is spliced behind the old head, clipping the rest of the chain),
so the entry is never head-linked. -/
theorem dictAdd_never_headlinks :
    dictAddH idHash true dictCreateH 1 42 = none ∧
    (dictAddRawH idHash true oneEntryState 4).map
        (fun p => (p.2, p.1.d.ht0.table, p.1.d.ht0.used, p.1.heap)) =
      some (some 1, some [some 0, none, none, none], 2,
        [⟨some 0, some 10, some 1⟩, ⟨some 4, none, some 0⟩]) :=
  ⟨rfl, rfl⟩

/-- C2: the claim asserts `replace(k, v1); replace(k, v2)` leaves value `v2`
with exactly one destructor call on `v1`, reporting fresh-insert then
overwrite.  The code compares the *pointer* returned by `dictAddRaw` with
`DICT_OK` (0), inverting both reports: the first call (key absent) returns
0 and, because `dictAddRaw` leaves the new entry's value uninitialized,
runs the destructor on that garbage value; the second call (key present)
returns 1 without touching the value at all, so the final value is `v1`
(11), not `v2` (22), and the destructor never sees `v1`. -/
theorem dictReplace_twice_diverges :
    replaceTwiceRun = some (0, 1,
      { d := { ht0 := { table := some [some 0, none, none, none], size := 4,
                        sizemask := 3, used := 2 }
               ht1 := hReset, rehashidx := -1, iterators := 0 }
        heap := [⟨some 0, some 10, some 1⟩, ⟨some 4, some 11, some 0⟩]
        destroyed := [none] }) :=
  rfl

/-- C4: the claim (and the function's own comment) says `dictRehash` returns
a nonzero value when keys remain to move.  On `midRehashDict`, one step
migrates bucket 0 and leaves a key in table 0, after which the `while (n--)`
loop exhausts `n` and control falls off the end of the non-void function:
the dict state is well defined but the returned value is unspecified
(modelled by the `none` result component). -/
theorem dictRehash_falls_off_end :
    dictRehash idHash midRehashDict 1 =
      some ({ ht0 := { table := [[], [⟨1, 11⟩], [], []], size := 4, sizemask := 3, used := 1 }
              ht1 := { table := [[⟨0, 10⟩], [], [], [], [], [], [], []], size := 8,
                       sizemask := 7, used := 1 }
              rehashidx := 1, iterators := 0 }, none) :=
  rfl

/-- C9: the automatic single-step helper `_dictRehashStep` leaves the dict
(both tables and the rehash cursor) unchanged whenever the live-iterator
count is nonzero — in particular a lookup then neither performs a step nor
changes the dict — and performs the `dictRehash(d, 1)` step exactly when
the count is zero; when rehashing is not active the step is a no-op even
with a zero count. -/
theorem rehashStep_gated_on_iterators (hash : Nat → Nat) (d : Dict) :
    (d.iterators ≠ 0 →
      _dictRehashStep hash d = some d ∧
      ∀ k, dictFind hash d k = some (d, findLookup hash d k)) ∧
    (d.iterators = 0 ∧ dictIsRehashing d = true →
      _dictRehashStep hash d = (dictRehash hash d 1).map Prod.fst) ∧
    (dictIsRehashing d = false → _dictRehashStep hash d = some d) := by
  refine ⟨fun hit => ⟨?_, ?_⟩, fun h => ?_, fun hnr => ?_⟩
  · simp [_dictRehashStep, hit]
  · intro k
    by_cases hsz : d.ht0.size = 0
    · simp [dictFind, hsz, findLookup]
    · by_cases hreh : dictIsRehashing d
      · simp [dictFind, hsz, hreh, _dictRehashStep, hit]
      · simp [dictFind, hsz, hreh]
  · simp [_dictRehashStep, h.1]
  · by_cases hit : d.iterators = 0
    · simp [_dictRehashStep, hit, dictRehash, hnr]
    · simp [_dictRehashStep, hit]

/-- Witness for C9 at concrete states: with a registered iterator the helper
and a lookup leave `iterHeldDict` untouched; with no iterator the helper is
exactly one `dictRehash(d, 1)` step. -/
theorem rehashStep_gated_witness :
    (_dictRehashStep idHash iterHeldDict = some iterHeldDict ∧
      dictFind idHash iterHeldDict 0 = some (iterHeldDict, findLookup idHash iterHeldDict 0)) ∧
    _dictRehashStep idHash midRehashDict = (dictRehash idHash midRehashDict 1).map Prod.fst :=
  ⟨⟨((rehashStep_gated_on_iterators idHash iterHeldDict).1 (by decide)).1,
    ((rehashStep_gated_on_iterators idHash iterHeldDict).1 (by decide)).2 0⟩,
   (rehashStep_gated_on_iterators idHash midRehashDict).2.1 ⟨rfl, by decide⟩⟩

/-- C10: releasing an iterator still in its initial state (table 0, bucket
index -1) performs no fingerprint re-validation and no live-count decrement:
the dict is returned unchanged and the misuse check never fires, whatever
mutations happened to the dict since the iterator was acquired. -/
theorem releaseIterator_initial_is_noop (a0 a1 : Nat) (d : Dict) (it : DictIterator)
    (hidx : it.index = -1) (htab : it.table = 0) :
    dictReleaseIterator a0 a1 d it = (d, false) := by
  simp [dictReleaseIterator, hidx, htab]

/-- Witness for C10: an unsafe iterator acquired (on `oneEntryDict`) and
released without any advance, with the dict mutated by an expand in
between, is released cleanly. -/
theorem releaseIterator_initial_is_noop_witness :
    dictReleaseIterator 3 9 mutatedDict dictGetIterator = (mutatedDict, false) :=
  releaseIterator_initial_is_noop 3 9 mutatedDict dictGetIterator rfl rfl


/-- Helper for C8: once an iterator has been started (bucket index already
nonnegative), further `dictNext` loop iterations never touch the dict or the
stored fingerprint. -/
theorem dictNextLoop_preserves (a0 a1 : Nat) :
    ∀ (fuel : Nat) (d : Dict) (it : DictIterator), 0 ≤ it.index →
      ∀ res, dictNextLoop a0 a1 fuel d it = some res →
        res.1 = d ∧ res.2.1.fingerprint = it.fingerprint := by
  intro fuel
  induction fuel with
  | zero => intro d it _ res hres; simp [dictNextLoop] at hres
  | succ n ih =>
    intro d it h res hres
    have hne : ¬(it.index = -1 ∧ it.table = 0) := by
      rintro ⟨h1, _⟩; omega
    rw [dictNextLoop, if_neg hne] at hres
    simp only [] at hres
    repeat' split at hres
    all_goals
      first
        | (cases hres <;> exact ⟨rfl, rfl⟩)
        | exact ih d { it with table := 1, index := 0, entry := d.ht1.table.getD 0 [] }
            (by show (0 : Int) ≤ 0; omega) res hres
        | exact ih d { it with index := it.index + 1, entry := d.ht0.table.getD (it.index + 1).toNat [] } (by show (0 : Int) ≤ it.index + 1; omega) res hres
        | exact ih d { it with index := it.index + 1, entry := d.ht1.table.getD (it.index + 1).toNat [] } (by show (0 : Int) ≤ it.index + 1; omega) res hres
        | exact ih d { it with entry := it.nextEntry } h res hres

/-- Helper for C8: the first advance of a fresh unsafe iterator leaves the
dict unchanged and stores the fingerprint of the dict as it is at that
moment (not at iterator creation, where the field is uninitialized). -/
theorem dictNext_first_advance_unsafe (a0 a1 : Nat) (d : Dict)
    (res : Dict × DictIterator × Option Entry)
    (hres : dictNext a0 a1 d dictGetIterator = some res) :
    res.1 = d ∧ res.2.1.fingerprint = some (dictFingerprint a0 a1 d) := by
  rw [dictNext, show d.ht0.size + d.ht1.size + 4 = (d.ht0.size + d.ht1.size + 3) + 1 from rfl,
    dictNextLoop] at hres
  simp only [dictGetIterator] at hres
  norm_num at hres
  repeat' split at hres
  all_goals
    first
      | (cases hres <;> exact ⟨rfl, rfl⟩)
      | exact dictNextLoop_preserves a0 a1 _ d _ (le_refl 0) res hres

/-- C8 counterexample: an unsafe iterator is acquired on `oneEntryDict`, the
dict is then structurally mutated by a successful `dictExpand` (the
fingerprint genuinely changes), and releasing the never-advanced iterator
does not trigger the fatal misuse path, contradicting the claim that any
mutation between acquisition and release is detected. -/
theorem release_after_mutation_without_advance_clean :
    (dictExpand oneEntryDict 8).2 = DICT_OK ∧
    mutatedDict ≠ oneEntryDict ∧
    dictFingerprint 3 9 mutatedDict ≠ dictFingerprint 3 9 oneEntryDict ∧
    dictReleaseIterator 3 9 mutatedDict dictGetIterator = (mutatedDict, false) :=
  ⟨rfl, by decide, by decide, rfl⟩

/-- C8 (amended): an unsafe iterator captures the fingerprint at its *first
advance*, not at creation; releasing an iterator that has been advanced at
least once leaves the dict unchanged and triggers the fatal misuse path
exactly when the fingerprint recomputed at release differs from the stored
one; an iterator never advanced skips the check (see the counterexample). -/
theorem unsafe_fingerprint_on_first_advance (a0 a1 : Nat) :
    (∀ (d : Dict) res, dictNext a0 a1 d dictGetIterator = some res →
      res.1 = d ∧ res.2.1.fingerprint = some (dictFingerprint a0 a1 d)) ∧
    (∀ (d : Dict) (it : DictIterator), ¬(it.index = -1 ∧ it.table = 0) → it.safe = false →
      (dictReleaseIterator a0 a1 d it).1 = d ∧
      ((dictReleaseIterator a0 a1 d it).2 = true ↔
        ¬ it.fingerprint = some (dictFingerprint a0 a1 d))) := by
  constructor
  · intro d res hres
    exact dictNext_first_advance_unsafe a0 a1 d res hres
  · intro d it hadv hsafe
    simp [dictReleaseIterator, hadv, hsafe]

/-- Witness for C8 at concrete states: advancing a fresh unsafe iterator on
`oneEntryDict` stores that dict's fingerprint; releasing it against the
mutated dict reports misuse exactly because the fingerprints differ (and
they do — the final conjunct shows the misuse check firing), while
releasing it against the unmutated dict is clean. -/
theorem unsafe_fingerprint_on_first_advance_witness :
    (((oneEntryDict, advancedIter, some (⟨0, 7⟩ : Entry)) :
        Dict × DictIterator × Option Entry).1 = oneEntryDict ∧
      ((oneEntryDict, advancedIter, some (⟨0, 7⟩ : Entry)) :
        Dict × DictIterator × Option Entry).2.1.fingerprint =
          some (dictFingerprint 3 9 oneEntryDict)) ∧
    ((dictReleaseIterator 3 9 mutatedDict advancedIter).1 = mutatedDict ∧
      ((dictReleaseIterator 3 9 mutatedDict advancedIter).2 = true ↔
        ¬ advancedIter.fingerprint = some (dictFingerprint 3 9 mutatedDict))) ∧
    (dictReleaseIterator 3 9 mutatedDict advancedIter).2 = true ∧
    (dictReleaseIterator 3 9 oneEntryDict advancedIter).2 = false :=
  ⟨(unsafe_fingerprint_on_first_advance 3 9).1 oneEntryDict _ (by decide),
   (unsafe_fingerprint_on_first_advance 3 9).2 mutatedDict advancedIter (by decide) (by decide),
   by decide, by decide⟩

/-- C6: with table 0 allocated and rehashing inactive, an insertion's growth
check arms an expansion to `2 * used` exactly when (a) `used ≥ size` and
resizing is administratively enabled, or (b) `used / size` exceeds the
force-resize ratio 5 even when disabled; with table 0 unallocated it first
initializes the table to the minimal size 4. -/
theorem expand_if_needed_policy (canResize : Bool) (d : Dict)
    (hnr : dictIsRehashing d = false)
    (halloc : d.ht0.table = [] ↔ d.ht0.size = 0)
    (hempty : d.ht0.size = 0 → d.ht0.used = 0) :
    (d.ht0.size = 0 →
      _dictExpandIfNeeded canResize d =
        ({ d with ht0 := ⟨List.replicate 4 [], 4, 3, 0⟩ }, DICT_OK)) ∧
    (0 < d.ht0.size →
      (((d.ht0.used ≥ d.ht0.size ∧ canResize = true) ∨
          d.ht0.used / d.ht0.size > dict_force_resize_ratio) →
        _dictExpandIfNeeded canResize d =
          ({ d with
              ht1 := ⟨List.replicate (_dictNextPower (2 * d.ht0.used)) [],
                _dictNextPower (2 * d.ht0.used), _dictNextPower (2 * d.ht0.used) - 1, 0⟩
              rehashidx := 0 }, DICT_OK)) ∧
      (¬((d.ht0.used ≥ d.ht0.size ∧ canResize = true) ∨
          d.ht0.used / d.ht0.size > dict_force_resize_ratio) →
        _dictExpandIfNeeded canResize d = (d, DICT_OK))) := by
  have hnr' : d.rehashidx = -1 := by simpa [dictIsRehashing] using hnr
  have hnp : _dictNextPower DICT_HT_INITIAL_SIZE = 4 := by decide
  refine ⟨fun h0 => ?_, fun hpos => ⟨fun hcond => ?_, fun hncond => ?_⟩⟩
  · have hu0 : d.ht0.used = 0 := hempty h0
    have htab : d.ht0.table = [] := halloc.mpr h0
    simp [_dictExpandIfNeeded, hnr', h0, dictExpand, dictIsRehashing, htab, hu0, hnp]
  · have hsz : ¬ d.ht0.size = 0 := by omega
    have htab : ¬ d.ht0.table = [] := fun ht => hsz (halloc.mp ht)
    have hcondb : ((d.ht0.used ≥ d.ht0.size && canResize) ||
        d.ht0.used / d.ht0.size > dict_force_resize_ratio) = true := by
      rcases hcond with ⟨h1, h2⟩ | h3
      · simp [h1, h2]
      · simp [h3]
    have hlt : ¬ d.ht0.used > 2 * d.ht0.used := by omega
    simp [_dictExpandIfNeeded, dictIsRehashing, hnr', hsz, hcondb, dictExpand, hlt, htab]
  · have hsz : ¬ d.ht0.size = 0 := by omega
    have hcondb : ((d.ht0.used ≥ d.ht0.size && canResize) ||
        d.ht0.used / d.ht0.size > dict_force_resize_ratio) = false := by
      by_cases h1 : d.ht0.used ≥ d.ht0.size <;> by_cases h2 : canResize = true <;>
        by_cases h3 : d.ht0.used / d.ht0.size > dict_force_resize_ratio <;>
        simp [h1, h2, h3] at hncond ⊢
    simp [_dictExpandIfNeeded, dictIsRehashing, hnr', hsz, hcondb]

/-- Witness for C6: a fresh dict's table is initialized to size 4; at full
load with resizing enabled the expansion to `2 * used = 8` is armed; at
full load with resizing disabled (ratio only 1) nothing happens. -/
theorem expand_if_needed_policy_witness :
    _dictExpandIfNeeded true dictCreate =
      ({ dictCreate with ht0 := ⟨List.replicate 4 [], 4, 3, 0⟩ }, DICT_OK) ∧
    _dictExpandIfNeeded true loadedDict =
      ({ loadedDict with ht1 := ⟨List.replicate 8 [], 8, 7, 0⟩, rehashidx := 0 }, DICT_OK) ∧
    _dictExpandIfNeeded false loadedDict = (loadedDict, DICT_OK) :=
  ⟨(expand_if_needed_policy true dictCreate (by decide) (by decide) (by decide)).1 rfl,
   ((expand_if_needed_policy true loadedDict (by decide) (by decide) (by decide)).2 (by decide)).1
     (Or.inl (by decide)),
   ((expand_if_needed_policy false loadedDict (by decide) (by decide) (by decide)).2 (by decide)).2
     (by decide)⟩

/-- Helper for C7: one or-shift step doubles the window of source bits that
feed each result bit. -/
theorem or_shift_window (x y : Nat) (w : Nat)
    (hy : ∀ i, y.testBit i = true ↔ ∃ d, d < w ∧ x.testBit (i + d) = true) (i : Nat) :
    (y ||| y >>> w).testBit i = true ↔ ∃ d, d < 2 * w ∧ x.testBit (i + d) = true := by
  rw [Nat.testBit_or, Nat.testBit_shiftRight, Bool.or_eq_true, hy, hy]
  constructor
  · rintro (⟨d, hd, hb⟩ | ⟨d, hd, hb⟩)
    · exact ⟨d, by omega, hb⟩
    · exact ⟨w + d, by omega, by rwa [show i + (w + d) = w + i + d by omega]⟩
  · rintro ⟨d, hd, hb⟩
    by_cases hdw : d < w
    · exact Or.inl ⟨d, hdw, hb⟩
    · exact Or.inr ⟨d - w, by omega, by rwa [show w + i + (d - w) = i + d by omega]⟩

/-- Helper for C7: a bit of `orSmear x` is set exactly when one of the 32
source bits at or above it is set. -/
theorem orSmear_testBit (x i : Nat) :
    (orSmear x).testBit i = true ↔ ∃ d, d < 32 ∧ x.testBit (i + d) = true := by
  have h1 : ∀ j, x.testBit j = true ↔ ∃ d, d < 1 ∧ x.testBit (j + d) = true := by
    intro j
    constructor
    · intro hb; exact ⟨0, by omega, by simpa using hb⟩
    · rintro ⟨d, hd, hb⟩
      have hd0 : d = 0 := by omega
      simpa [hd0] using hb
  have h2 := or_shift_window x x 1 h1
  have h4 := or_shift_window x _ 2 h2
  have h8 := or_shift_window x _ 4 h4
  have h16 := or_shift_window x _ 8 h8
  have h32 := or_shift_window x _ 16 h16
  simpa [orSmear] using h32 i

/-- Helper for C7: the leading bit of a positive number is set. -/
theorem testBit_log2_self (x : Nat) (hx : 0 < x) : x.testBit (Nat.log2 x) = true := by
  rw [Nat.testBit_to_div_mod]
  have h1 : 2 ^ Nat.log2 x ≤ x := Nat.log2_self_le (by omega)
  have h2 : x < 2 ^ (Nat.log2 x + 1) := Nat.lt_log2_self
  have hdiv : x / 2 ^ Nat.log2 x = 1 := by
    apply Nat.div_eq_of_lt_le
    · simpa using h1
    · rw [Nat.pow_succ] at h2; omega
  simp [hdiv]

/-- Helper for C7: for positive inputs below `2^32` the smear fills all bits
below the leading one. -/
theorem orSmear_eq_two_pow_sub_one (x : Nat) (hx : 0 < x) (hx32 : x < 2 ^ 32) :
    orSmear x = 2 ^ (Nat.log2 x + 1) - 1 := by
  have hlog : Nat.log2 x < 32 := (Nat.log2_lt (by omega)).mpr hx32
  apply Nat.eq_of_testBit_eq
  intro i
  rw [Nat.testBit_two_pow_sub_one]
  by_cases hi : i < Nat.log2 x + 1
  · simp only [hi, decide_True]
    refine (orSmear_testBit x i).mpr ⟨Nat.log2 x - i, by omega, ?_⟩
    rw [show i + (Nat.log2 x - i) = Nat.log2 x by omega]
    exact testBit_log2_self x hx
  · simp only [hi, decide_False]
    refine Bool.eq_false_iff.mpr fun hb => ?_
    obtain ⟨d, hd, hbit⟩ := (orSmear_testBit x i).mp hb
    have hlt : x < 2 ^ (i + d) :=
      lt_of_lt_of_le Nat.lt_log2_self (Nat.pow_le_pow_right (by norm_num) (by omega))
    rw [Nat.testBit_lt_two_pow hlt] at hbit
    exact Bool.false_ne_true hbit

/-- Helper for C7: below the clamp, `_dictNextPower` returns the least power
of two that is at least `size` and at least the minimum table size. -/
theorem _dictNextPower_least (size : Nat) (h : size ≤ UINT32_MAX) :
    ∃ k, _dictNextPower size = 2 ^ k ∧ DICT_HT_INITIAL_SIZE ≤ 2 ^ k ∧ size ≤ 2 ^ k ∧
      ∀ j, size ≤ 2 ^ j → DICT_HT_INITIAL_SIZE ≤ 2 ^ j → 2 ^ k ≤ 2 ^ j := by
  by_cases hs : size < DICT_HT_INITIAL_SIZE
  · have hs' : size < 4 := by simpa [DICT_HT_INITIAL_SIZE] using hs
    refine ⟨2, by simp [_dictNextPower, DICT_HT_INITIAL_SIZE, hs'], by norm_num [DICT_HT_INITIAL_SIZE], ?_, ?_⟩
    · have : size < 4 := by simpa [DICT_HT_INITIAL_SIZE] using hs
      omega
    · intro j _ h2
      simpa [DICT_HT_INITIAL_SIZE] using h2
  · have hs4 : 4 ≤ size := by
      have := Nat.not_lt.mp hs
      simpa [DICT_HT_INITIAL_SIZE] using this
    have hnotbig : ¬ size > UINT32_MAX := by omega
    have hx : 0 < size - 1 := by omega
    have hx32 : size - 1 < 2 ^ 32 := by
      have hmax : UINT32_MAX = 2 ^ 32 - 1 := by norm_num [UINT32_MAX]
      omega
    have hone : 1 ≤ 2 ^ (Nat.log2 (size - 1) + 1) := Nat.one_le_two_pow
    have hres : _dictNextPower size = 2 ^ (Nat.log2 (size - 1) + 1) := by
      simp only [_dictNextPower, hs, if_false, hnotbig, ite_false,
        orSmear_eq_two_pow_sub_one _ hx hx32]
      omega
    refine ⟨Nat.log2 (size - 1) + 1, hres, ?_, ?_, ?_⟩
    · have h1 : 1 ≤ Nat.log2 (size - 1) := (Nat.le_log2 (by omega)).mpr (by omega)
      have : (2:Nat) ^ 2 ≤ 2 ^ (Nat.log2 (size - 1) + 1) :=
        Nat.pow_le_pow_right (by norm_num) (by omega)
      simpa [DICT_HT_INITIAL_SIZE] using this
    · have := Nat.lt_log2_self (n := size - 1)
      omega
    · intro j hj _
      have hj' : size - 1 < 2 ^ j := by omega
      have : Nat.log2 (size - 1) < j := (Nat.log2_lt (by omega)).mpr hj'
      exact Nat.pow_le_pow_right (by norm_num) (by omega)

/-- Helper for C7: above `UINT32_MAX` the result is clamped. -/
theorem _dictNextPower_clamp (size : Nat) (h : UINT32_MAX < size) :
    _dictNextPower size = UINT32_MAX := by
  have h1 : ¬ size < DICT_HT_INITIAL_SIZE := by
    simp only [DICT_HT_INITIAL_SIZE, UINT32_MAX] at *
    omega
  simp [_dictNextPower, h1, h]

/-- C7 (amended): `dictExpand` fails exactly when the dict is rehashing or
`used > target_size`; on success the newly allocated table (table 0 when
previously unallocated, else table 1 with the rehash cursor armed) has
`_dictNextPower target` buckets, which for `target ≤ UINT32_MAX` is the
least power of two that is ≥ target and ≥ the minimum 4, while for
`target > UINT32_MAX` it is the clamp value `UINT32_MAX` itself, which is
not a power of two (see the counterexample). -/
theorem dictExpand_spec (d : Dict) (target : Nat) :
    ((dictExpand d target).2 = DICT_ERR ↔
      (dictIsRehashing d = true ∨ d.ht0.used > target)) ∧
    ((dictExpand d target).2 = DICT_OK →
      ((d.ht0.table = [] ∧ (dictExpand d target).1 =
          { d with ht0 := ⟨List.replicate (_dictNextPower target) [], _dictNextPower target,
              _dictNextPower target - 1, 0⟩ }) ∨
       (d.ht0.table ≠ [] ∧ (dictExpand d target).1 =
          { d with ht1 := ⟨List.replicate (_dictNextPower target) [], _dictNextPower target,
              _dictNextPower target - 1, 0⟩, rehashidx := 0 })) ∧
      (target ≤ UINT32_MAX →
        ∃ k, _dictNextPower target = 2 ^ k ∧ DICT_HT_INITIAL_SIZE ≤ 2 ^ k ∧ target ≤ 2 ^ k ∧
          ∀ j, target ≤ 2 ^ j → DICT_HT_INITIAL_SIZE ≤ 2 ^ j → 2 ^ k ≤ 2 ^ j) ∧
      (UINT32_MAX < target → _dictNextPower target = UINT32_MAX)) := by
  by_cases hb : (dictIsRehashing d || d.ht0.used > target) = true
  · have herr : dictExpand d target = (d, DICT_ERR) := by
      simp only [dictExpand, hb, if_true]
    constructor
    · simp only [herr]
      constructor
      · intro _
        simpa using hb
      · intro _; trivial
    · intro hok
      rw [herr] at hok
      simp [DICT_ERR, DICT_OK] at hok
  · have hb' : (dictIsRehashing d || d.ht0.used > target) = false := by
      simpa using hb
    constructor
    · constructor
      · intro herr
        exfalso
        by_cases htab : d.ht0.table = [] <;>
          simp [dictExpand, hb', htab, DICT_ERR, DICT_OK] at herr
      · intro hcond
        exfalso
        rcases hcond with h1 | h2
        · simp [h1] at hb'
        · simp [h2] at hb'
    · intro _
      refine ⟨?_, fun hsmall => _dictNextPower_least target hsmall,
        fun hbig => _dictNextPower_clamp target hbig⟩
      by_cases htab : d.ht0.table = []
      · left
        refine ⟨htab, ?_⟩
        simp [dictExpand, hb', htab]
      · right
        refine ⟨htab, ?_⟩
        simp [dictExpand, hb', htab]

/-- Witness for C7 at a concrete input: expanding a fresh dict to 5 gives a
table of `_dictNextPower 5 = 8` buckets with the least-power-of-two
characterization. -/
theorem dictExpand_spec_witness :
    ((dictExpand dictCreate 5).2 = DICT_ERR ↔
      (dictIsRehashing dictCreate = true ∨ dictCreate.ht0.used > 5)) ∧
    ((dictCreate.ht0.table = [] ∧ (dictExpand dictCreate 5).1 =
        { dictCreate with ht0 := ⟨List.replicate (_dictNextPower 5) [], _dictNextPower 5,
            _dictNextPower 5 - 1, 0⟩ }) ∨
     (dictCreate.ht0.table ≠ [] ∧ (dictExpand dictCreate 5).1 =
        { dictCreate with ht1 := ⟨List.replicate (_dictNextPower 5) [], _dictNextPower 5,
            _dictNextPower 5 - 1, 0⟩, rehashidx := 0 })) ∧
    (∃ k, _dictNextPower 5 = 2 ^ k ∧ DICT_HT_INITIAL_SIZE ≤ 2 ^ k ∧ 5 ≤ 2 ^ k ∧
      ∀ j, 5 ≤ 2 ^ j → DICT_HT_INITIAL_SIZE ≤ 2 ^ j → 2 ^ k ≤ 2 ^ j) :=
  ⟨(dictExpand_spec dictCreate 5).1,
   ((dictExpand_spec dictCreate 5).2 rfl).1,
   ((dictExpand_spec dictCreate 5).2 rfl).2.1 (by norm_num [UINT32_MAX])⟩

/-- C7 counterexample: expanding to `2^32` (just above the clamp) succeeds
and allocates a table of size `UINT32_MAX = 4294967295`, which is not a
power of two — refuting the claim that every allocated table length is 0 or
a power of two. -/
theorem dictExpand_above_clamp_not_pow2 :
    (dictExpand dictCreate 4294967296).2 = DICT_OK ∧
    (dictExpand dictCreate 4294967296).1.ht0.size = 4294967295 ∧
    ∀ k, (dictExpand dictCreate 4294967296).1.ht0.size ≠ 2 ^ k := by
  refine ⟨rfl, rfl, ?_⟩
  intro k
  rw [show (dictExpand dictCreate 4294967296).1.ht0.size = 4294967295 from rfl]
  cases k with
  | zero => decide
  | succ m =>
    intro hk
    rw [Nat.pow_succ] at hk
    omega

theorem getD_set_self' {α : Type} (l : List α) (n : Nat) (a dflt : α) (h : n < l.length) :
    (l.set n a).getD n dflt = a := by
  simp [List.getD_eq_getElem?_getD, List.getElem?_set_self h]

theorem getD_set_ne' {α : Type} (l : List α) (n m : Nat) (a dflt : α) (h : n ≠ m) :
    (l.set n a).getD m dflt = l.getD m dflt := by
  simp [List.getD_eq_getElem?_getD, List.getElem?_set_ne h]

theorem sum_map_set_getD {α : Type} (f : α → Nat) (dflt : α) :
    ∀ (l : List α) (j : Nat) (v : α), j < l.length →
      ((l.set j v).map f).sum + f (l.getD j dflt) = (l.map f).sum + f v := by
  intro l
  induction l with
  | nil => intro j v hj; simp at hj
  | cons x xs ih =>
    intro j v hj
    cases j with
    | zero => simp; omega
    | succ m =>
      have hm : m < xs.length := by simpa using hj
      have := ih m v hm
      simp only [List.set, List.map_cons, List.sum_cons, List.getD_cons_succ]
      omega

theorem bucketFind_eq_none_iff (k : Nat) (b : Bucket) :
    bucketFind k b = none ↔ ∀ e ∈ b, e.key ≠ k := by
  induction b with
  | nil => simp [bucketFind]
  | cons e rest ih =>
    by_cases he : e.key = k
    · simp [bucketFind, he]
    · simp [bucketFind, he, ih]

theorem bucketFind_some (k : Nat) (b : Bucket) (e : Entry) (h : bucketFind k b = some e) :
    e ∈ b ∧ e.key = k := by
  induction b with
  | nil => simp [bucketFind] at h
  | cons x rest ih =>
    by_cases hx : x.key = k
    · simp [bucketFind, hx] at h
      subst h
      exact ⟨List.mem_cons_self x rest, hx⟩
    · simp [bucketFind, hx] at h
      obtain ⟨h1, h2⟩ := ih h
      exact ⟨List.mem_cons_of_mem x h1, h2⟩

theorem bucketKeyCount_eq_zero_iff (k : Nat) (b : Bucket) :
    bucketKeyCount k b = 0 ↔ ∀ e ∈ b, e.key ≠ k := by
  simp [bucketKeyCount, List.count_eq_zero, List.mem_map]

theorem and_mask_lt (h s : Nat) (hpos : 0 < s) : h &&& (s - 1) < s := by
  have := Nat.and_le_right (n := h) (m := s - 1)
  omega

theorem moveEntries_fst (hash : Nat → Nat) :
    ∀ (es : List Entry) (u0 : Nat) (t1 : Dictht),
      (moveEntries hash es u0 t1).1 = u0 - es.length := by
  intro es
  induction es with
  | nil => intro u0 t1; simp [moveEntries]
  | cons de rest ih =>
    intro u0 t1
    simp only [moveEntries]
    rw [ih]
    simp
    omega

theorem moveEntries_frame (hash : Nat → Nat) :
    ∀ (es : List Entry) (u0 : Nat) (t1 : Dictht),
      (moveEntries hash es u0 t1).2.size = t1.size ∧
      (moveEntries hash es u0 t1).2.sizemask = t1.sizemask ∧
      (moveEntries hash es u0 t1).2.table.length = t1.table.length := by
  intro es
  induction es with
  | nil => intro u0 t1; simp [moveEntries]
  | cons de rest ih =>
    intro u0 t1
    simp only [moveEntries]
    refine ⟨(ih _ _).1, (ih _ _).2.1, ?_⟩
    rw [(ih _ _).2.2]
    simp

theorem moveEntries_used (hash : Nat → Nat) :
    ∀ (es : List Entry) (u0 : Nat) (t1 : Dictht),
      (moveEntries hash es u0 t1).2.used = t1.used + es.length := by
  intro es
  induction es with
  | nil => intro u0 t1; simp [moveEntries]
  | cons de rest ih =>
    intro u0 t1
    simp only [moveEntries]
    rw [ih]
    simp
    omega

theorem moveEntries_lookup_notin (hash : Nat → Nat) (k : Nat) :
    ∀ (es : List Entry), (∀ e ∈ es, e.key ≠ k) →
      ∀ (u0 : Nat) (t1 : Dictht) (j : Nat),
        bucketFind k ((moveEntries hash es u0 t1).2.table.getD j []) =
          bucketFind k (t1.table.getD j []) := by
  intro es
  induction es with
  | nil => intro _ u0 t1 j; simp [moveEntries]
  | cons de rest ih =>
    intro hne u0 t1 j
    simp only [moveEntries]
    rw [ih (fun e he => hne e (List.mem_cons_of_mem de he))]
    simp only []
    by_cases hlen : hkey hash de.key &&& t1.sizemask < t1.table.length
    · by_cases hj : hkey hash de.key &&& t1.sizemask = j
      · subst hj
        rw [getD_set_self' _ _ _ _ hlen]
        simp [bucketFind, hne de (List.mem_cons_self de rest)]
      · rw [getD_set_ne' _ _ _ _ _ hj]
    · rw [List.set_eq_of_length_le (Nat.le_of_not_lt hlen)]

theorem tableKeyCount_prepend_ne (k : Nat) (de : Entry) (hde : de.key ≠ k)
    (t1 : Dictht) (j : Nat) :
    tableKeyCount k { t1 with table := t1.table.set j (de :: t1.table.getD j []), used := t1.used + 1 } = tableKeyCount k t1 := by
  by_cases hj : j < t1.table.length
  · have hsum := sum_map_set_getD (bucketKeyCount k) ([] : Bucket) t1.table j
      (de :: t1.table.getD j []) hj
    have hcons : bucketKeyCount k (de :: t1.table.getD j []) =
        bucketKeyCount k (t1.table.getD j []) := by
      simp only [bucketKeyCount, List.map_cons]
      rw [List.count_cons_of_ne (fun h => hde h.symm)]
    simp only [tableKeyCount]
    omega
  · rw [List.set_eq_of_length_le (Nat.le_of_not_lt hj)]
    simp [tableKeyCount]

theorem moveEntries_lookup_found (hash : Nat → Nat) (k : Nat) :
    ∀ (es : List Entry) (e : Entry), bucketFind k es = some e →
      bucketKeyCount k es ≤ 1 →
      ∀ (u0 : Nat) (t1 : Dictht), tableKeyCount k t1 = 0 →
        t1.table.length = t1.size → t1.sizemask = t1.size - 1 → 0 < t1.size →
        bucketFind k ((moveEntries hash es u0 t1).2.table.getD (hkey hash k &&& t1.sizemask) []) =
          some e := by
  intro es
  induction es with
  | nil => intro e h; simp [bucketFind] at h
  | cons de rest ih =>
    intro e hfind hcount u0 t1 hzero hlen hmask hpos
    by_cases hde : de.key = k
    · have he : e = de := by
        simp [bucketFind, hde] at hfind
        exact hfind.symm
      have hrest0 : bucketKeyCount k rest = 0 := by
        have : bucketKeyCount k (de :: rest) = bucketKeyCount k rest + 1 := by
          simp [bucketKeyCount, hde]
        omega
      have hrest : ∀ e' ∈ rest, e'.key ≠ k := (bucketKeyCount_eq_zero_iff k rest).mp hrest0
      simp only [moveEntries]
      rw [moveEntries_lookup_notin hash k rest hrest]
      simp only []
      have hidx : hkey hash de.key &&& t1.sizemask = hkey hash k &&& t1.sizemask := by rw [hde]
      rw [hidx]
      have hlt : hkey hash k &&& t1.sizemask < t1.table.length := by
        rw [hmask, hlen]
        exact and_mask_lt _ _ hpos
      rw [getD_set_self' _ _ _ _ hlt]
      simp [bucketFind, hde, he]
    · have hfind' : bucketFind k rest = some e := by
        simpa [bucketFind, hde] using hfind
      have hcount' : bucketKeyCount k rest ≤ 1 := by
        have : bucketKeyCount k (de :: rest) = bucketKeyCount k rest := by
          simp only [bucketKeyCount, List.map_cons]
          rw [List.count_cons_of_ne (fun h => hde h.symm)]
        omega
      simp only [moveEntries]
      exact ih e hfind' hcount' (u0 - 1) _
        (by rw [tableKeyCount_prepend_ne k de hde]; exact hzero)
        (by simpa using hlen) hmask hpos

theorem bucketKeyCount_cons (k : Nat) (de : Entry) (b : Bucket) :
    bucketKeyCount k (de :: b) = bucketKeyCount k b + (if de.key = k then 1 else 0) := by
  by_cases hde : de.key = k
  · simp [bucketKeyCount, hde]
  · simp only [bucketKeyCount, List.map_cons]
    rw [List.count_cons_of_ne (fun h => hde h.symm)]
    simp [hde]

theorem moveEntries_count (hash : Nat → Nat) (k : Nat) :
    ∀ (es : List Entry) (u0 : Nat) (t1 : Dictht),
      t1.table.length = t1.size → 0 < t1.size → t1.sizemask = t1.size - 1 →
      tableKeyCount k (moveEntries hash es u0 t1).2 =
        tableKeyCount k t1 + bucketKeyCount k es := by
  intro es
  induction es with
  | nil => intro u0 t1 _ _ _; simp [moveEntries, bucketKeyCount]
  | cons de rest ih =>
    intro u0 t1 hlen hpos hmask
    simp only [moveEntries]
    set J := hkey hash de.key &&& t1.sizemask with hJ
    have hlt : J < t1.table.length := by
      rw [hJ, hmask, hlen]
      exact and_mask_lt _ _ hpos
    have hmain := ih (u0 - 1)
      { t1 with table := t1.table.set J (de :: t1.table.getD J []), used := t1.used + 1 }
      (by simpa using hlen) hpos hmask
    rw [hmain]
    have hsum := sum_map_set_getD (bucketKeyCount k) ([] : Bucket) t1.table J
      (de :: t1.table.getD J []) hlt
    have h1 := bucketKeyCount_cons k de (t1.table.getD J [])
    have h2 := bucketKeyCount_cons k de rest
    simp only [tableKeyCount] at *
    omega

theorem moveEntries_sumlen (hash : Nat → Nat) :
    ∀ (es : List Entry) (u0 : Nat) (t1 : Dictht),
      t1.table.length = t1.size → 0 < t1.size → t1.sizemask = t1.size - 1 →
      ((moveEntries hash es u0 t1).2.table.map List.length).sum =
        (t1.table.map List.length).sum + es.length := by
  intro es
  induction es with
  | nil => intro u0 t1 _ _ _; simp [moveEntries]
  | cons de rest ih =>
    intro u0 t1 hlen hpos hmask
    simp only [moveEntries]
    set J := hkey hash de.key &&& t1.sizemask with hJ
    have hlt : J < t1.table.length := by
      rw [hJ, hmask, hlen]
      exact and_mask_lt _ _ hpos
    have hmain := ih (u0 - 1)
      { t1 with table := t1.table.set J (de :: t1.table.getD J []), used := t1.used + 1 }
      (by simpa using hlen) hpos hmask
    rw [hmain]
    have hsum := sum_map_set_getD List.length ([] : Bucket) t1.table J
      (de :: t1.table.getD J []) hlt
    simp only [List.length_cons] at hsum
    simp only [List.length_cons]
    omega

theorem moveEntries_buckets_ok (hash : Nat → Nat) :
    ∀ (es : List Entry) (u0 : Nat) (t1 : Dictht),
      t1.table.length = t1.size → 0 < t1.size → t1.sizemask = t1.size - 1 →
      (∀ i, i < t1.table.length → ∀ e ∈ t1.table.getD i [], hkey hash e.key &&& t1.sizemask = i) →
      ∀ i, i < (moveEntries hash es u0 t1).2.table.length →
        ∀ e ∈ (moveEntries hash es u0 t1).2.table.getD i [],
          hkey hash e.key &&& t1.sizemask = i := by
  intro es
  induction es with
  | nil => intro u0 t1 _ _ _ hok; simpa [moveEntries] using hok
  | cons de rest ih =>
    intro u0 t1 hlen hpos hmask hok
    simp only [moveEntries]
    set J := hkey hash de.key &&& t1.sizemask with hJ
    have hlt : J < t1.table.length := by
      rw [hJ, hmask, hlen]
      exact and_mask_lt _ _ hpos
    have hok' : ∀ i, i < (t1.table.set J (de :: t1.table.getD J [])).length →
        ∀ e ∈ (t1.table.set J (de :: t1.table.getD J [])).getD i [],
          hkey hash e.key &&& t1.sizemask = i := by
      intro i hi e he
      by_cases hij : J = i
      · subst hij
        rw [getD_set_self' _ _ _ _ hlt] at he
        rcases List.mem_cons.mp he with hcase | hcase
        · subst hcase
          exact hJ.symm
        · exact hok J hlt e hcase
      · rw [getD_set_ne' _ _ _ _ _ hij] at he
        exact hok i (by simpa using hi) e he
    exact ih (u0 - 1)
      { t1 with table := t1.table.set J (de :: t1.table.getD J []), used := t1.used + 1 }
      (by simpa using hlen) hpos hmask hok'

theorem skipEmptyGo_some_spec (t : List Bucket) :
    ∀ (fuel i r : Nat), skipEmptyGo t i fuel = some r →
      i ≤ r ∧ r < t.length ∧ t.getD r [] ≠ [] ∧ ∀ j, i ≤ j → j < r → t.getD j [] = [] := by
  intro fuel
  induction fuel with
  | zero => intro i r h; simp [skipEmptyGo] at h
  | succ n ih =>
    intro i r h
    rw [skipEmptyGo] at h
    by_cases hi : i < t.length
    · simp only [hi, if_true] at h
      by_cases hemp : t.getD i [] = []
      · simp only [hemp, if_true] at h
        obtain ⟨h1, h2, h3, h4⟩ := ih (i + 1) r h
        refine ⟨by omega, h2, h3, fun j hj1 hj2 => ?_⟩
        by_cases hji : j = i
        · subst hji
          exact hemp
        · exact h4 j (by omega) hj2
      · simp only [hemp, if_false] at h
        cases h
        exact ⟨Nat.le_refl i, hi, hemp, fun j hj1 hj2 => by omega⟩
    · simp [hi] at h

theorem skipEmptyGo_none_spec (t : List Bucket) :
    ∀ (fuel i : Nat), t.length ≤ fuel + i → skipEmptyGo t i fuel = none →
      ∀ j, i ≤ j → j < t.length → t.getD j [] = [] := by
  intro fuel
  induction fuel with
  | zero =>
    intro i hfi h j hj1 hj2
    omega
  | succ n ih =>
    intro i hfi h j hj1 hj2
    rw [skipEmptyGo] at h
    by_cases hi : i < t.length
    · simp only [hi, if_true] at h
      by_cases hemp : t.getD i [] = []
      · simp only [hemp, if_true] at h
        by_cases hji : j = i
        · subst hji
          exact hemp
        · exact ih (i + 1) (by omega) h j (by omega) hj2
      · rw [if_neg hemp] at h
        cases h
    · omega

theorem bucket_len_le_sum (l : List Bucket) (j : Nat) (hj : j < l.length) :
    (l.getD j []).length ≤ (l.map List.length).sum := by
  have hmem : (l.getD j []).length ∈ l.map List.length := by
    rw [List.getD_eq_getElem?_getD, List.getElem?_eq_getElem hj]
    exact List.mem_map_of_mem List.length (l.getElem_mem hj)
  exact List.single_le_sum (fun x _ => Nat.zero_le x) _ hmem

theorem bucketKeyCount_le_tableKeyCount (k : Nat) (t : Dictht) (j : Nat)
    (hj : j < t.table.length) :
    bucketKeyCount k (t.table.getD j []) ≤ tableKeyCount k t := by
  have hmem : bucketKeyCount k (t.table.getD j []) ∈ t.table.map (bucketKeyCount k) := by
    rw [List.getD_eq_getElem?_getD, List.getElem?_eq_getElem hj]
    exact List.mem_map_of_mem (bucketKeyCount k) (t.table.getElem_mem hj)
  exact List.single_le_sum (fun x _ => Nat.zero_le x) _ hmem

theorem sum_lengths_pos_nonempty (l : List Bucket) (h : 0 < (l.map List.length).sum) :
    ∃ j, j < l.length ∧ l.getD j [] ≠ [] := by
  induction l with
  | nil => simp at h
  | cons b rest ih =>
    by_cases hb : b = []
    · subst hb
      simp at h
      obtain ⟨j, hj1, hj2⟩ := ih (by simpa using h)
      exact ⟨j + 1, by simpa using hj1, by simpa using hj2⟩
    · exact ⟨0, by simp, by simpa using hb⟩

theorem sum_lengths_zero_all_empty (l : List Bucket) (h : (l.map List.length).sum = 0) :
    ∀ j, l.getD j [] = [] := by
  intro j
  induction l generalizing j with
  | nil => simp
  | cons b rest ih =>
    simp at h
    cases j with
    | zero => simpa using h.1
    | succ m => simpa using ih h.2 m

theorem tableKeyCount_eq_count_tableKeys (k : Nat) (t : Dictht) :
    tableKeyCount k t = (tableKeys t).count k := by
  simp only [tableKeyCount, tableKeys, List.count_flatten, List.map_map]
  rfl

theorem bucketFind_none_count (k : Nat) (b : Bucket) :
    bucketFind k b = none ↔ bucketKeyCount k b = 0 := by
  rw [bucketFind_eq_none_iff, bucketKeyCount_eq_zero_iff]

theorem tableKeyCount_zero_of_miss (hash : Nat → Nat) (k : Nat) (t : Dictht)
    (hok : ∀ i, i < t.table.length → ∀ e ∈ t.table.getD i [], hkey hash e.key &&& t.sizemask = i)
    (hmiss : bucketFind k (t.table.getD (hkey hash k &&& t.sizemask) []) = none) :
    tableKeyCount k t = 0 := by
  apply List.sum_eq_zero
  intro x hx
  obtain ⟨b, hb, hbx⟩ := List.mem_map.mp hx
  obtain ⟨i, hi, hib⟩ := List.mem_iff_getElem.mp hb
  subst hbx
  rw [bucketKeyCount_eq_zero_iff]
  intro e he hek
  have hgd : t.table.getD i [] = b := by
    rw [List.getD_eq_getElem?_getD, List.getElem?_eq_getElem hi, hib]
    rfl
  have hpos := hok i hi e (by rwa [hgd])
  rw [hek] at hpos
  rw [bucketFind_eq_none_iff] at hmiss
  exact hmiss e (by rw [hpos, hgd]; exact he) hek

theorem dict_counts_le_one (d : Dict)
    (hnd : (tableKeys d.ht0 ++ tableKeys d.ht1).Nodup) (k : Nat) :
    tableKeyCount k d.ht0 + tableKeyCount k d.ht1 ≤ 1 := by
  have h := List.nodup_iff_count_le_one.mp hnd k
  rw [List.count_append] at h
  rw [tableKeyCount_eq_count_tableKeys, tableKeyCount_eq_count_tableKeys]
  omega

theorem rehash_complete_case (hash : Nat → Nat) (d : Dict)
    (hwf : dictWF hash d) (hreh : dictIsRehashing d = true) (hu0 : d.ht0.used = 0) :
    (∀ k, findLookup hash { d with ht0 := d.ht1, ht1 := _dictReset, rehashidx := -1 } k =
      findLookup hash d k) ∧
    dictSize { d with ht0 := d.ht1, ht1 := _dictReset, rehashidx := -1 } = dictSize d ∧
    dictWF hash { d with ht0 := d.ht1, ht1 := _dictReset, rehashidx := -1 } := by
  obtain ⟨hwf0, hwfr, _, hnd⟩ := hwf
  obtain ⟨hwf1, hri0, hempty⟩ := hwfr hreh
  obtain ⟨hsz0, hmask0, hlen0, hused0, hok0⟩ := hwf0
  obtain ⟨hsz1, hmask1, hlen1, hused1, hok1⟩ := hwf1
  have hpos0 : 0 < d.ht0.size := by
    obtain ⟨k, _, hk⟩ := hsz0
    rw [hk]
    exact Nat.pos_pow_of_pos _ (by norm_num)
  have hpos1 : 0 < d.ht1.size := by
    obtain ⟨k, _, hk⟩ := hsz1
    rw [hk]
    exact Nat.pos_pow_of_pos _ (by norm_num)
  have hall : ∀ j, d.ht0.table.getD j [] = [] :=
    sum_lengths_zero_all_empty d.ht0.table (by omega)
  have hbempty : ∀ b ∈ d.ht0.table, b = [] := by
    intro b hb
    obtain ⟨i, hi, hib⟩ := List.mem_iff_getElem.mp hb
    have h := hall i
    rw [List.getD_eq_getElem?_getD, List.getElem?_eq_getElem hi, hib] at h
    exact h
  have hkeys0 : tableKeys d.ht0 = [] := by
    simp only [tableKeys, List.flatten_eq_nil_iff]
    intro l hl
    obtain ⟨b, hb, rfl⟩ := List.mem_map.mp hl
    rw [hbempty b hb]
    rfl
  have hs0 : ¬ d.ht0.size = 0 := by omega
  have hs1 : ¬ d.ht1.size = 0 := by omega
  refine ⟨?_, ?_, ?_⟩
  · intro k
    have hb0 : d.ht0.table.getD (hkey hash k &&& d.ht0.sizemask) [] = [] := hall _
    have hnr' : dictIsRehashing { d with ht0 := d.ht1, ht1 := _dictReset, rehashidx := -1 } = false := by
      simp [dictIsRehashing]
    simp only [findLookup, hnr', hreh]
    rw [if_neg hs0, if_neg hs1, hb0]
    simp only [bucketFind]
    cases hbf : bucketFind k (d.ht1.table.getD (hkey hash k &&& d.ht1.sizemask) []) with
    | none => simp [hbf]
    | some e => simp [hbf]
  · simp [dictSize, _dictReset]
    omega
  · refine ⟨⟨hsz1, hmask1, hlen1, hused1, hok1⟩, ?_, ?_, ?_⟩
    · intro h
      simp [dictIsRehashing] at h
    · intro _
      rfl
    · have hkeys1 : tableKeys (_dictReset) = [] := rfl
      simp only []
      rw [hkeys1]
      rw [hkeys0] at hnd
      simpa using hnd

theorem findLookup_eval (hash : Nat → Nat) (d : Dict) (k : Nat) (hs0 : ¬ d.ht0.size = 0) :
    findLookup hash d k =
      match bucketFind k (d.ht0.table.getD (hkey hash k &&& d.ht0.sizemask) []) with
      | some e => some e
      | none =>
        if dictIsRehashing d then
          bucketFind k (d.ht1.table.getD (hkey hash k &&& d.ht1.sizemask) [])
        else none := by
  simp only [findLookup, if_neg hs0]

theorem rehash_migrate_case (hash : Nat → Nat) (d : Dict) (i : Nat)
    (hwf : dictWF hash d) (hreh : dictIsRehashing d = true)
    (hilen : i < d.ht0.table.length) (hine : d.ht0.table.getD i [] ≠ [])
    (hbelow : ∀ j, j < i → d.ht0.table.getD j [] = []) :
    (∀ k, findLookup hash (migrateBucket hash d i) k = findLookup hash d k) ∧
    dictSize (migrateBucket hash d i) = dictSize d ∧
    dictWF hash (migrateBucket hash d i) := by
  obtain ⟨hwf0, hwfr, hnr, hnd⟩ := hwf
  obtain ⟨hwf1, hri0, hempty⟩ := hwfr hreh
  obtain ⟨hsz0, hmask0, hlen0, hused0, hok0⟩ := hwf0
  obtain ⟨hsz1, hmask1, hlen1, hused1, hok1⟩ := hwf1
  have hpos0 : 0 < d.ht0.size := by
    obtain ⟨k, _, hk⟩ := hsz0
    rw [hk]
    exact Nat.pos_pow_of_pos _ (by norm_num)
  have hpos1 : 0 < d.ht1.size := by
    obtain ⟨k, _, hk⟩ := hsz1
    rw [hk]
    exact Nat.pos_pow_of_pos _ (by norm_num)
  have hs0 : ¬ d.ht0.size = 0 := by omega
  have hfrm := moveEntries_frame hash (d.ht0.table.getD i []) d.ht0.used d.ht1
  have hfst := moveEntries_fst hash (d.ht0.table.getD i []) d.ht0.used d.ht1
  have husedM := moveEntries_used hash (d.ht0.table.getD i []) d.ht0.used d.ht1
  have heslen : (d.ht0.table.getD i []).length ≤ d.ht0.used := by
    rw [hused0]
    exact bucket_len_le_sum _ i hilen
  have hcounts := fun k => dict_counts_le_one d hnd k
  have hreh' : dictIsRehashing (migrateBucket hash d i) = true := by
    simp only [dictIsRehashing, migrateBucket]
    simp only [bne_iff_ne, ne_eq]
    omega
  have hes_ok : ∀ e ∈ d.ht0.table.getD i [], hkey hash e.key &&& d.ht0.sizemask = i :=
    fun e he => hok0 i hilen e he
  have hsum0 := sum_map_set_getD List.length ([] : Bucket) d.ht0.table i ([] : Bucket) hilen
  have hcnt0 := fun k =>
    sum_map_set_getD (bucketKeyCount k) ([] : Bucket) d.ht0.table i ([] : Bucket) hilen
  have hcntM := fun k =>
    moveEntries_count hash k (d.ht0.table.getD i []) d.ht0.used d.ht1 hlen1 hpos1 hmask1
  have hcntes : ∀ k, bucketKeyCount k (d.ht0.table.getD i []) ≤ tableKeyCount k d.ht0 :=
    fun k => bucketKeyCount_le_tableKeyCount k d.ht0 i hilen
  refine ⟨?_, ?_, ?_⟩
  · intro k
    rw [findLookup_eval hash d k hs0, findLookup_eval hash (migrateBucket hash d i) k hs0]
    cases hbf0 : bucketFind k (d.ht0.table.getD (hkey hash k &&& d.ht0.sizemask) []) with
    | some e =>
      by_cases hij : hkey hash k &&& d.ht0.sizemask = i
      · have hbfes : bucketFind k (d.ht0.table.getD i []) = some e := by
          rw [← hij]
          exact hbf0
        have hcnt_pos : 0 < bucketKeyCount k (d.ht0.table.getD i []) := by
          obtain ⟨hmem, hkeq⟩ := bucketFind_some k _ e hbfes
          have hmm : k ∈ (d.ht0.table.getD i []).map Entry.key :=
            List.mem_map.mpr ⟨e, hmem, hkeq⟩
          simpa [bucketKeyCount] using List.count_pos_iff.mpr hmm
        have hcnt1 : tableKeyCount k d.ht1 = 0 := by
          have h1 := hcounts k
          have h2 := hcntes k
          omega
        have hfound := moveEntries_lookup_found hash k (d.ht0.table.getD i []) e hbfes
          (by have h1 := hcounts k; have h2 := hcntes k; omega)
          d.ht0.used d.ht1 hcnt1 hlen1 hmask1 hpos1
        have hLb0 : (migrateBucket hash d i).ht0.table.getD
            (hkey hash k &&& d.ht0.sizemask) [] = [] := by
          simp only [migrateBucket]
          rw [hij]
          exact getD_set_self' _ _ _ _ hilen
        show (match bucketFind k ((migrateBucket hash d i).ht0.table.getD
            (hkey hash k &&& d.ht0.sizemask) []) with
          | some e => some e
          | none =>
            if dictIsRehashing (migrateBucket hash d i) then
              bucketFind k ((migrateBucket hash d i).ht1.table.getD
                (hkey hash k &&& (migrateBucket hash d i).ht1.sizemask) [])
            else none) = some e
        rw [hLb0]
        simp only [bucketFind, hreh', if_true]
        show bucketFind k ((moveEntries hash (d.ht0.table.getD i []) d.ht0.used d.ht1).2.table.getD
          (hkey hash k &&& (moveEntries hash (d.ht0.table.getD i []) d.ht0.used d.ht1).2.sizemask) []) = some e
        rw [hfrm.2.1]
        exact hfound
      · have hLb0 : (migrateBucket hash d i).ht0.table.getD
            (hkey hash k &&& d.ht0.sizemask) [] =
            d.ht0.table.getD (hkey hash k &&& d.ht0.sizemask) [] := by
          simp only [migrateBucket]
          exact getD_set_ne' _ _ _ _ _ (fun h => hij h.symm)
        show (match bucketFind k ((migrateBucket hash d i).ht0.table.getD
            (hkey hash k &&& d.ht0.sizemask) []) with
          | some e => some e
          | none =>
            if dictIsRehashing (migrateBucket hash d i) then
              bucketFind k ((migrateBucket hash d i).ht1.table.getD
                (hkey hash k &&& (migrateBucket hash d i).ht1.sizemask) [])
            else none) = some e
        rw [hLb0, hbf0]
    | none =>
      have hkes : ∀ e ∈ d.ht0.table.getD i [], e.key ≠ k := by
        intro e he hek
        have hidx := hok0 i hilen e he
        rw [hek] at hidx
        rw [bucketFind_eq_none_iff] at hbf0
        exact hbf0 e (by rw [← hidx] at he; exact he) hek
      have hnotin := moveEntries_lookup_notin hash k (d.ht0.table.getD i []) hkes
        d.ht0.used d.ht1 (hkey hash k &&& d.ht1.sizemask)
      have hLb0 : bucketFind k ((migrateBucket hash d i).ht0.table.getD
          (hkey hash k &&& d.ht0.sizemask) []) = none := by
        simp only [migrateBucket]
        by_cases hij : hkey hash k &&& d.ht0.sizemask = i
        · rw [hij, getD_set_self' _ _ _ _ hilen]
          rfl
        · rw [getD_set_ne' _ _ _ _ _ (fun h => hij h.symm)]
          exact hbf0
      show (match bucketFind k ((migrateBucket hash d i).ht0.table.getD
          (hkey hash k &&& d.ht0.sizemask) []) with
        | some e => some e
        | none =>
          if dictIsRehashing (migrateBucket hash d i) then
            bucketFind k ((migrateBucket hash d i).ht1.table.getD
              (hkey hash k &&& (migrateBucket hash d i).ht1.sizemask) [])
          else none) =
        if dictIsRehashing d then
          bucketFind k (d.ht1.table.getD (hkey hash k &&& d.ht1.sizemask) [])
        else none
      rw [hLb0]
      simp only [hreh', hreh, if_true]
      show bucketFind k ((moveEntries hash (d.ht0.table.getD i []) d.ht0.used d.ht1).2.table.getD
          (hkey hash k &&& (moveEntries hash (d.ht0.table.getD i []) d.ht0.used d.ht1).2.sizemask) []) =
        bucketFind k (d.ht1.table.getD (hkey hash k &&& d.ht1.sizemask) [])
      rw [hfrm.2.1]
      exact hnotin
  · simp only [dictSize, migrateBucket]
    rw [hfst, husedM]
    omega
  · refine ⟨⟨hsz0, hmask0, ?_, ?_, ?_⟩, fun _ => ⟨⟨?_, ?_, ?_, ?_, ?_⟩, ?_, ?_⟩,
      fun hfalse => absurd (hfalse.symm.trans hreh') (by decide), ?_⟩
    · simp only [migrateBucket, List.length_set]
      exact hlen0
    · simp only [migrateBucket]
      rw [hfst]
      have hnil : List.length ([] : Bucket) = 0 := rfl
      rw [hnil] at hsum0
      omega
    · intro i' hi' e he
      simp only [migrateBucket] at hi' he
      by_cases hij : i = i'
      · subst hij
        rw [getD_set_self' _ _ _ _ hilen] at he
        simp at he
      · rw [getD_set_ne' _ _ _ _ _ hij] at he
        exact hok0 i' (by simpa using hi') e he
    · simp only [migrateBucket]
      rw [hfrm.1]
      exact hsz1
    · simp only [migrateBucket]
      rw [hfrm.2.1, hfrm.1]
      exact hmask1
    · simp only [migrateBucket]
      rw [hfrm.2.2, hfrm.1]
      exact hlen1
    · simp only [migrateBucket]
      rw [husedM, moveEntries_sumlen hash _ _ _ hlen1 hpos1 hmask1]
      omega
    · simp only [migrateBucket]
      have hbase := moveEntries_buckets_ok hash (d.ht0.table.getD i []) d.ht0.used d.ht1
        hlen1 hpos1 hmask1 hok1
      intro i' hi' e he
      rw [hfrm.2.1]
      exact hbase i' hi' e he
    · simp only [migrateBucket]
      omega
    · simp only [migrateBucket]
      intro j hj
      have hj' : j < i + 1 := by
        have : ((i : Int) + 1).toNat = i + 1 := by omega
        omega
      by_cases hji : j = i
      · subst hji
        exact getD_set_self' _ _ _ _ hilen
      · rw [getD_set_ne' _ _ _ _ _ (fun h => hji h.symm)]
        exact hbelow j (by omega)
    · rw [List.nodup_iff_count_le_one]
      intro a
      rw [List.count_append, ← tableKeyCount_eq_count_tableKeys, ← tableKeyCount_eq_count_tableKeys]
      have h1 := hcnt0 a
      have h2 := hcntM a
      have h3 := hcounts a
      have h4 := hcntes a
      simp only [migrateBucket]
      show tableKeyCount a { d.ht0 with table := d.ht0.table.set i [], used := (moveEntries hash (d.ht0.table.getD i []) d.ht0.used d.ht1).1 } + tableKeyCount a (moveEntries hash (d.ht0.table.getD i []) d.ht0.used d.ht1).2 ≤ 1
      simp only [tableKeyCount] at *
      have hbk : bucketKeyCount a ([] : Bucket) = 0 := rfl
      omega


theorem rehashLoop_one (hash : Nat → Nat) (d : Dict) :
    rehashLoop hash d 1 =
      if d.ht0.used = 0 then
        some ({ d with ht0 := d.ht1, ht1 := _dictReset, rehashidx := -1 }, some 0)
      else if d.ht0.size ≤ ((d.rehashidx % 4294967296).toNat % 4294967296) then none
      else
        match skipEmpty d.ht0.table d.rehashidx.toNat with
        | none => none
        | some i => some (migrateBucket hash d i, none) := rfl

/-- C3: one incremental rehash step preserves lookups, total size, and the
dict invariants. -/
theorem dictRehash_step_preserves (hash : Nat → Nat) (d : Dict)
    (hwf : dictWF hash d) (hreh : dictIsRehashing d = true) :
    ∃ d' r, dictRehash hash d 1 = some (d', r) ∧
      (∀ k, findLookup hash d' k = findLookup hash d k) ∧
      dictSize d' = dictSize d ∧
      dictWF hash d' := by
  have hwfc := hwf
  obtain ⟨hwf0, hwfr, hnr, hnd⟩ := hwfc
  obtain ⟨hwf1, hri0, hempty⟩ := hwfr hreh
  obtain ⟨hsz0, hmask0, hlen0, hused0, hok0⟩ := hwf0
  have hunf : dictRehash hash d 1 = rehashLoop hash d 1 := if_pos hreh
  rw [hunf, rehashLoop_one hash d]
  by_cases hu0 : d.ht0.used = 0
  · rw [if_pos hu0]
    obtain ⟨h1, h2, h3⟩ := rehash_complete_case hash d hwf hreh hu0
    exact ⟨_, some 0, rfl, h1, h2, h3⟩
  · rw [if_neg hu0]
    have hszle : d.ht0.size ≤ 4294967296 := by
      obtain ⟨k, hk, hs⟩ := hsz0
      have hple : (2 : Nat) ^ k ≤ 2 ^ 32 := Nat.pow_le_pow_right (by norm_num) (by omega)
      have h32 : (2 : Nat) ^ 32 = 4294967296 := by norm_num
      omega
    have hsumpos : 0 < (d.ht0.table.map List.length).sum := by
      rw [← hused0]
      omega
    obtain ⟨j0, hj0len, hj0ne⟩ := sum_lengths_pos_nonempty d.ht0.table hsumpos
    have hj0ge : d.rehashidx.toNat ≤ j0 := by
      by_contra hlt
      exact hj0ne (hempty j0 (by omega))
    have hguard : ¬ d.ht0.size ≤ ((d.rehashidx % 4294967296).toNat % 4294967296) := by
      omega
    rw [if_neg hguard]
    cases hse : skipEmpty d.ht0.table d.rehashidx.toNat with
    | none =>
      exfalso
      have hallemp := skipEmptyGo_none_spec d.ht0.table
        (d.ht0.table.length - d.rehashidx.toNat) d.rehashidx.toNat (by omega) hse
      exact hj0ne (hallemp j0 hj0ge hj0len)
    | some i =>
      obtain ⟨hige, hilen, hine, hmid⟩ := skipEmptyGo_some_spec d.ht0.table
        (d.ht0.table.length - d.rehashidx.toNat) d.rehashidx.toNat i hse
      have hbelow : ∀ j, j < i → d.ht0.table.getD j [] = [] := by
        intro j hj
        by_cases hjc : j < d.rehashidx.toNat
        · exact hempty j hjc
        · exact hmid j (by omega) hj
      obtain ⟨h1, h2, h3⟩ := rehash_migrate_case hash d i hwf hreh hilen hine hbelow
      exact ⟨migrateBucket hash d i, none, rfl, h1, h2, h3⟩

theorem dictRehash_step_preserves_witness :
    ∃ d' r, dictRehash idHash midRehashDict 1 = some (d', r) ∧
      (∀ k, findLookup idHash d' k = findLookup idHash midRehashDict k) ∧
      dictSize d' = dictSize midRehashDict ∧
      dictWF idHash d' :=
  dictRehash_step_preserves idHash midRehashDict
    (by unfold dictWF tableWF sizeOk; decide) (by decide)

/-- C5: the claim asserts that scanning from cursor 0 until the cursor
returns to 0 visits every continuously present entry even if the table
grows, shrinks, or rehashes between calls.  It fails under shrinking: the
expansion do-while advances the bits above the smaller mask by plain
increment starting from whatever stale high cursor bits the previous
(larger-table) call left behind, so expansion indices numerically below
them are silently skipped.  Concretely: one call on a size-16 table at
cursor 0 (visiting bucket 0, returning cursor 8), then a shrink towards
size 4 (`dictExpand dScanA 4`), then four calls driving the cursor
8 → 2 → 1 → 3 → 0 finish the scan having emitted nothing at all — the
old table's bucket 4 is never visited — although `find` returns the
entry (key 4, value 9) in every state of the session. -/
theorem dictScan_shrink_misses_entry :
    dScanB = { dScanA with
      ht1 := { table := [[], [], [], []], size := 4, sizemask := 3, used := 0 }
      rehashidx := 0 } ∧
    findLookup idHash dScanA 4 = some ⟨4, 9⟩ ∧
    findLookup idHash dScanB 4 = some ⟨4, 9⟩ ∧
    dictScan dScanA 16 0 = some ([], 8) ∧
    dictScan dScanB 16 8 = some ([], 2) ∧
    dictScan dScanB 16 2 = some ([], 1) ∧
    dictScan dScanB 16 1 = some ([], 3) ∧
    dictScan dScanB 16 3 = some ([], 0) := by
  refine ⟨?_, ?_, ?_, ?_, ?_, ?_, ?_, ?_⟩ <;> rfl
